import Mathlib

/-!
The method `RuneReader.ReadLine` of terminal/runereader.go.

A shallow embedding of the line editor `ReadLine`: the buffer `line`, the cursor
`index`, the renderer calls it issues and the cursor-position queries it makes.

* Runes are integers (`rune` is `int32`; no arithmetic is done on them).
* `index` is an integer, as in the source (`int`); slice expressions are checked
  against the bounds of the slice and fail (`none`) where Go would panic.
* The two loops of the Home and End keys run on fuel; `none` also stands for a
  loop that did not finish within the fuel.
* The renderer functions, the key constants, `Size`, `CursorLocation` and the
  `Coord` type are declared in other files of the package: renderer calls are
  recorded as values of `Call`, the key constants are the fields of `Keys`, the
  terminal size is an argument and the cursor oracle is a stream of answers.
-/

namespace Terminal

/-- Go's `rune`. -/
abbrev Rune := Int

/-- Modelled from the spec: the `Coord` type (declared outside runereader.go), the
cursor position `{column, row}`, 1-based, with integer fields `X` (column) and
`Y` (row). -/
structure Coord where
  X : Int
  Y : Int
deriving DecidableEq

/-- Modelled from the spec: `CursorIsAtLineBegin` (declared outside
runereader.go), "CursorPos is at column 1". -/
def Coord.CursorIsAtLineBegin (cur : Coord) : Bool :=
  cur.X == 1

/-- Modelled from the spec: `CursorIsAtLineEnd` (declared outside
runereader.go), "CursorPos is at the last column of the current row", the
column equal to the terminal width. -/
def Coord.CursorIsAtLineEnd (cur size : Coord) : Bool :=
  cur.X == size.X

/-- The renderer calls made by `ReadLine`, one constructor per call shape. -/
inductive Call where
  /-- The calls `Print(s)` and `Printf(s)` with a literal string. -/
  | Print (s : String)
  /-- The call `Printf("%c", c)`. -/
  | PrintfC (c : Rune)
  | CursorPreviousLine (n : Int)
  | CursorNextLine (n : Int)
  | CursorForward (n : Int)
  | CursorBack (n : Int)
  | CursorUp (n : Int)
  /-- The call `EraseLine(ERASE_LINE_END)`. -/
  | EraseLineEnd
  | CursorSave
  | CursorRestore
  | soundBell
deriving DecidableEq

/-- The key code constants used by `ReadLine` (declared outside runereader.go). -/
structure Keys where
  KeyEndTransmission : Rune
  KeyInterrupt : Rune
  KeyBackspace : Rune
  KeyDelete : Rune
  KeyArrowLeft : Rune
  KeyArrowRight : Rune
  SpecialKeyHome : Rune
  SpecialKeyEnd : Rune
  SpecialKeyDelete : Rune
  IgnoreKey : Rune
deriving DecidableEq

/-- Go's `unicode.IsControl`: the C0 and C1 control characters of Latin-1. -/
def IsControl (r : Rune) : Bool :=
  (0 ≤ r && r < 32) || (127 ≤ r && r < 160)

/-- Errors returned by `ReadLine`: the package's `InterruptErr`, or an error of
the underlying reader. -/
inductive GoError where
  | InterruptErr
  | readError (code : Nat)
deriving DecidableEq

/-- One result of `rr.ReadRune()`. -/
inductive ReadResult where
  | rune (r : Rune)
  | fail (err : GoError)
deriving DecidableEq

/-- The loop state of `ReadLine` together with what it has done so far:
`out` the renderer calls in the order issued, `queries` the number of
`CursorLocation()` calls, `iters` the number of iterations of the Home and End
loops. -/
structure State where
  line : List Rune
  index : Int
  out : List Call
  queries : Nat
  iters : Nat
deriving DecidableEq

/-- The state at the top of `ReadLine`: `line := []rune{}`, `index := 0`. -/
def State.init : State :=
  { line := [], index := 0, out := [], queries := 0, iters := 0 }

/-- What `ReadLine` returns: `(line, err)`, with `err = none` for `nil`. -/
structure Result where
  line : List Rune
  err : Option GoError
deriving DecidableEq

/-- The effect of one key: the loop continues, or `ReadLine` returns. -/
inductive Outcome where
  | next (s : State)
  | ret (res : Result) (s : State)
deriving DecidableEq

/-- The state an outcome carries. -/
def Outcome.state : Outcome → State
  | Outcome.next s => s
  | Outcome.ret _ s => s

/-- The slice expression `l[:hi]`. -/
def sliceTo (l : List Rune) (hi : Int) : Option (List Rune) :=
  if 0 ≤ hi ∧ hi ≤ l.length then some (l.take hi.toNat) else none

/-- The slice expression `l[lo:]`. -/
def sliceFrom (l : List Rune) (lo : Int) : Option (List Rune) :=
  if 0 ≤ lo ∧ lo ≤ l.length then some (l.drop lo.toNat) else none

/-- The cursor step shared by the trailing and the mid-line backward delete
(lines 64-69 and 99-104). -/
def backOne (terminalSize cursorCurrent : Coord) : List Call :=
  if cursorCurrent.X = 1 then
    [Call.CursorPreviousLine 1, Call.CursorForward terminalSize.X]
  else
    [Call.CursorBack 1]

/-- The loops of lines 86-92 and 200-203: erase, then print the character. -/
def eraseAndPrint (chars : List Rune) : List Call :=
  chars.flatMap fun char => [Call.EraseLineEnd, Call.PrintfC char]

/-- The branch `r == KeyBackspace || r == KeyDelete` (lines 56-116). -/
def backspaceKey (terminalSize cursorCurrent : Coord) (s : State) : Option State :=
  if s.index > 0 ∧ (s.line.length : Int) > 0 then
    if s.index = s.line.length then
      (sliceTo s.line ((s.line.length : Int) - 1)).map fun line =>
        { s with
          line := line
          out := s.out ++ backOne terminalSize cursorCurrent ++ [Call.EraseLineEnd]
          index := s.index - 1 }
    else
      (sliceTo s.line (s.index - 1)).bind fun front =>
      (sliceFrom s.line s.index).bind fun back =>
      let line := front ++ back
      (sliceFrom line (s.index - 1)).map fun rest =>
        { s with
          line := line
          out := s.out ++ [Call.CursorSave, Call.CursorBack 1] ++ eraseAndPrint rest
            ++ [Call.Print "\x1bE", Call.EraseLineEnd, Call.CursorRestore]
            ++ (if cursorCurrent.CursorIsAtLineBegin then
                  [Call.CursorPreviousLine 1, Call.CursorForward terminalSize.X]
                else [Call.CursorBack 1])
          index := s.index - 1 }
  else
    some { s with out := s.out ++ [Call.soundBell] }

/-- The branch `r == KeyArrowLeft` (lines 119-140). -/
def arrowLeftKey (terminalSize cursorCurrent : Coord) (s : State) : State :=
  if s.index > 0 then
    { s with
      out := s.out ++ (if cursorCurrent.CursorIsAtLineBegin then
          [Call.CursorUp 1, Call.CursorForward terminalSize.X]
        else [Call.CursorBack 1])
      index := s.index - 1 }
  else
    { s with out := s.out ++ [Call.soundBell] }

/-- The branch `r == KeyArrowRight` (lines 143-162). -/
def arrowRightKey (terminalSize cursorCurrent : Coord) (s : State) : State :=
  if s.index < s.line.length then
    { s with
      out := s.out ++ (if cursorCurrent.CursorIsAtLineEnd terminalSize then
          [Call.CursorNextLine 1]
        else [Call.CursorForward 1])
      index := s.index + 1 }
  else
    { s with out := s.out ++ [Call.soundBell] }

/-- One iteration of the Home loop (lines 166-176), on the loop variables
`cursorCurrent` and the state. -/
def homeBody (terminalSize : Coord) (p : Coord × State) : Coord × State :=
  if p.1.CursorIsAtLineBegin then
    ({ X := terminalSize.X, Y := p.1.Y - 1 },
     { p.2 with
       out := p.2.out ++ [Call.CursorPreviousLine 1, Call.CursorForward terminalSize.X]
       index := p.2.index - 1
       iters := p.2.iters + 1 })
  else
    ({ p.1 with X := p.1.X - 1 },
     { p.2 with
       out := p.2.out ++ [Call.CursorBack 1]
       index := p.2.index - 1
       iters := p.2.iters + 1 })

/-- The loop `for index > 0` of the Home key (lines 165-177). -/
def homeLoop (terminalSize : Coord) : Nat → Coord × State → Option (Coord × State)
  | 0, p => if p.2.index > 0 then none else some p
  | n + 1, p =>
    if p.2.index > 0 then homeLoop terminalSize n (homeBody terminalSize p) else some p

/-- One iteration of the End loop (lines 181-190). -/
def endBody (terminalSize : Coord) (p : Coord × State) : Coord × State :=
  if p.1.CursorIsAtLineEnd terminalSize then
    ({ X := 1, Y := p.1.Y + 1 },
     { p.2 with
       out := p.2.out ++ [Call.CursorNextLine 1]
       index := p.2.index + 1
       iters := p.2.iters + 1 })
  else
    ({ p.1 with X := p.1.X + 1 },
     { p.2 with
       out := p.2.out ++ [Call.CursorForward 1]
       index := p.2.index + 1
       iters := p.2.iters + 1 })

/-- The loop `for index != len(line)` of the End key (lines 180-191). -/
def endLoop (terminalSize : Coord) : Nat → Coord × State → Option (Coord × State)
  | 0, p => if p.2.index ≠ p.2.line.length then none else some p
  | n + 1, p =>
    if p.2.index ≠ p.2.line.length then endLoop terminalSize n (endBody terminalSize p)
    else some p

/-- The branch `r == SpecialKeyDelete` (lines 193-215). -/
def specialDeleteKey (s : State) : Option State :=
  if s.index ≠ s.line.length then
    (sliceTo s.line s.index).bind fun front =>
    (sliceFrom s.line (s.index + 1)).bind fun back =>
    let line := front ++ back
    (sliceFrom line s.index).map fun rest =>
      { s with
        line := line
        out := s.out ++ [Call.CursorSave] ++ eraseAndPrint rest
          ++ [Call.Print "\x1bE", Call.EraseLineEnd, Call.CursorRestore]
          ++ (if (line.length : Int) = 0 ∨ s.index = line.length then
                [Call.EraseLineEnd] else []) }
  else some s

/-- One iteration of the re-print loop of the mid-line insert (lines 248-265),
on the loop variables `cursorCurrent` and the calls issued. -/
def reprintStep (terminalSize : Coord) (mask : Rune) (acc : Coord × List Call)
    (char : Rune) : Coord × List Call :=
  let acc1 : Coord × List Call :=
    if acc.1.X = terminalSize.X then
      ({ X := 1, Y := acc.1.Y + 1 }, acc.2 ++ [Call.CursorNextLine 1, Call.EraseLineEnd])
    else acc
  ({ acc1.1 with X := acc1.1.X + 1 },
   acc1.2 ++ [if mask = 0 then Call.PrintfC char else Call.PrintfC mask])

/-- The final branch: a regular key (lines 226-278). `oracle` answers the
second `CursorLocation()` call of the mid-line insert. -/
def regularKey (terminalSize cursorCurrent : Coord) (mask : Rune) (oracle : Nat → Coord)
    (s : State) (r : Rune) : Option State :=
  if s.index = s.line.length then
    some { s with
      line := s.line ++ [r]
      index := s.index + 1
      out := s.out ++ [if mask = 0 then Call.PrintfC r else Call.PrintfC mask] }
  else
    (sliceTo s.line s.index).bind fun front =>
    (sliceFrom s.line s.index).bind fun back =>
    let line := front ++ ([r] ++ back)
    (sliceFrom line s.index).map fun rest =>
      let printed := rest.foldl (reprintStep terminalSize mask)
        (cursorCurrent, s.out ++ [Call.CursorSave, Call.EraseLineEnd])
      let cursorAfter := oracle s.queries
      { s with
        line := line
        queries := s.queries + 1
        out := printed.2 ++ [Call.CursorRestore]
          ++ (if cursorAfter.X = terminalSize.X then [Call.CursorNextLine 1]
              else [Call.CursorForward 1])
        index := s.index + 1 }

/-- The body of the `for` loop of `ReadLine` after a successful `ReadRune`
(lines 35-278): the cursor query, then the chain of key tests in source order. -/
def handleKey (K : Keys) (terminalSize : Coord) (mask : Rune) (fuel : Nat)
    (oracle : Nat → Coord) (s0 : State) (r : Rune) : Option Outcome :=
  let cursorCurrent := oracle s0.queries
  let s : State := { s0 with queries := s0.queries + 1 }
  if r = 13 ∨ r = 10 ∨ r = K.KeyEndTransmission then
    some (Outcome.ret ⟨s.line, none⟩ { s with out := s.out ++ [Call.Print "\r\n"] })
  else if r = K.KeyInterrupt then
    some (Outcome.ret ⟨s.line, some GoError.InterruptErr⟩
      { s with out := s.out ++ [Call.Print "\r\n"] })
  else if r = K.KeyBackspace ∨ r = K.KeyDelete then
    (backspaceKey terminalSize cursorCurrent s).map Outcome.next
  else if r = K.KeyArrowLeft then
    some (Outcome.next (arrowLeftKey terminalSize cursorCurrent s))
  else if r = K.KeyArrowRight then
    some (Outcome.next (arrowRightKey terminalSize cursorCurrent s))
  else if r = K.SpecialKeyHome then
    (homeLoop terminalSize fuel (cursorCurrent, s)).map fun p => Outcome.next p.2
  else if r = K.SpecialKeyEnd then
    (endLoop terminalSize fuel (cursorCurrent, s)).map fun p => Outcome.next p.2
  else if r = K.SpecialKeyDelete then
    (specialDeleteKey s).map Outcome.next
  else if IsControl r ∨ r = K.IgnoreKey then
    some (Outcome.next s)
  else
    (regularKey terminalSize cursorCurrent mask oracle s r).map Outcome.next

/-- The `for` loop of `ReadLine` (lines 28-279) from state `s`, reading from
`input`; `none` when the input runs dry before a terminating key (the read
blocks), or when a key gives no next state. The state returned with the result
is the one at the `return`. -/
def ReadLineLoop (K : Keys) (terminalSize : Coord) (mask : Rune) (fuel : Nat)
    (oracle : Nat → Coord) : List ReadResult → State → Option (Result × State)
  | [], _ => none
  | ReadResult.fail err :: _, s => some (⟨s.line, some err⟩, s)
  | ReadResult.rune r :: rest, s =>
    match handleKey K terminalSize mask fuel oracle s r with
    | none => none
    | some (Outcome.ret res s1) => some (res, s1)
    | some (Outcome.next s1) => ReadLineLoop K terminalSize mask fuel oracle rest s1

/-- The method `RuneReader.ReadLine(mask)`, on the results `input` of the successive
`ReadRune` calls. -/
def ReadLine (K : Keys) (terminalSize : Coord) (mask : Rune) (fuel : Nat)
    (oracle : Nat → Coord) (input : List ReadResult) : Option (Result × State) :=
  ReadLineLoop K terminalSize mask fuel oracle input State.init

/-- The state after handling the keys `keys` one after the other from `s`,
stopping at a key that makes `ReadLine` return. -/
def runKeys (K : Keys) (terminalSize : Coord) (mask : Rune) (fuel : Nat)
    (oracle : Nat → Coord) : List Rune → State → Option State
  | [], s => some s
  | r :: rest, s =>
    match handleKey K terminalSize mask fuel oracle s r with
    | none => none
    | some (Outcome.ret _ s1) => some s1
    | some (Outcome.next s1) => runKeys K terminalSize mask fuel oracle rest s1

/-- The invariant of the data model: `0 ≤ index ≤ len(line)`. -/
def State.Inv (s : State) : Prop :=
  0 ≤ s.index ∧ s.index ≤ s.line.length

instance (s : State) : Decidable s.Inv := by
  unfold State.Inv; infer_instance

/-- The key constants are pairwise distinct and none is `'\r'` or `'\n'`. -/
def Keys.Distinct (K : Keys) : Prop :=
  [13, 10, K.KeyEndTransmission, K.KeyInterrupt, K.KeyBackspace, K.KeyDelete,
   K.KeyArrowLeft, K.KeyArrowRight, K.SpecialKeyHome, K.SpecialKeyEnd,
   K.SpecialKeyDelete].Nodup

instance (K : Keys) : Decidable K.Distinct := by
  unfold Keys.Distinct; infer_instance

/-- A key that reaches the final branch of the loop body: none of the tests of
lines 38-218 holds for it. -/
def Keys.Regular (K : Keys) (r : Rune) : Prop :=
  r ≠ 13 ∧ r ≠ 10 ∧ r ≠ K.KeyEndTransmission ∧ r ≠ K.KeyInterrupt ∧
  r ≠ K.KeyBackspace ∧ r ≠ K.KeyDelete ∧ r ≠ K.KeyArrowLeft ∧ r ≠ K.KeyArrowRight ∧
  r ≠ K.SpecialKeyHome ∧ r ≠ K.SpecialKeyEnd ∧ r ≠ K.SpecialKeyDelete ∧
  IsControl r = false ∧ r ≠ K.IgnoreKey

instance (K : Keys) (r : Rune) : Decidable (K.Regular r) := by
  unfold Keys.Regular; infer_instance

/-- A key table with ASCII control codes, for concrete runs. -/
def asciiKeys : Keys :=
  { KeyEndTransmission := 4, KeyInterrupt := 3, KeyBackspace := 8, KeyDelete := 127,
    KeyArrowLeft := 2, KeyArrowRight := 6, SpecialKeyHome := 1, SpecialKeyEnd := 17,
    SpecialKeyDelete := 18, IgnoreKey := 0 }

/-- An oracle that always reports the same position. -/
def constOracle (c : Coord) : Nat → Coord :=
  fun _ => c

/-- The characters sent to the renderer by `Printf("%c", _)` calls. -/
def printedChars (out : List Call) : List Rune :=
  out.filterMap fun c =>
    match c with
    | Call.PrintfC ch => some ch
    | _ => none

/-- The call that shows a typed character: the character, or the mask when one
is set (lines 232-238). -/
def showChar (mask : Rune) (r : Rune) : Call :=
  if mask = 0 then Call.PrintfC r else Call.PrintfC mask

/-- The state after typing `chars` at the end of the line of `s`. -/
def State.typed (mask : Rune) (s : State) (chars : List Rune) : State :=
  { s with
    line := s.line ++ chars
    index := s.index + chars.length
    out := s.out ++ chars.map (showChar mask)
    queries := s.queries + chars.length }

/-- Every key constant is a control character. -/
def Keys.AllControl (K : Keys) : Prop :=
  ∀ k ∈ [K.KeyEndTransmission, K.KeyInterrupt, K.KeyBackspace, K.KeyDelete, K.KeyArrowLeft,
    K.KeyArrowRight, K.SpecialKeyHome, K.SpecialKeyEnd, K.SpecialKeyDelete, K.IgnoreKey],
    IsControl k = true

instance (K : Keys) : Decidable K.AllControl := by
  unfold Keys.AllControl; infer_instance

/-- The state with its record of renderer calls dropped. -/
def State.eraseOut (s : State) : State :=
  { s with out := [] }

/-- The outcome with the record of renderer calls dropped. -/
def Outcome.eraseOut : Outcome → Outcome
  | Outcome.next s => Outcome.next s.eraseOut
  | Outcome.ret res s => Outcome.ret res s.eraseOut

/-- The loop variables with the record of renderer calls dropped. -/
def eraseOutLoop (p : Coord × State) : Coord × State :=
  (p.1, p.2.eraseOut)

/-- Modelled from the spec: the terminal cursor as the renderer primitives move
it (the terminal and the renderer are outside runereader.go). `cur` is the
cursor position, 1-based, `saved` the snapshot of save-cursor-position. -/
structure Screen where
  cur : Coord
  saved : Coord
deriving DecidableEq

/-- Modelled from the spec: the effect of one renderer call on the cursor of a
terminal of width `W`. Printing a character moves the cursor one column to the
right (wrapping of printed text is not modelled); move-cursor-by moves by `n`
columns or rows, forward movement stopping at column `W` and backward movement
at column 1; move-to-start-of-next/previous-line goes to column 1 of the row
`n` below/above; the two printed strings, `"\r\n"` and `ESC E`, go to column 1
of the next row; restore returns to the saved position; erase and bell do not
move the cursor. -/
def Screen.apply (W : Int) (t : Screen) : Call → Screen
  | Call.Print _ => { t with cur := ⟨1, t.cur.Y + 1⟩ }
  | Call.PrintfC _ => { t with cur := ⟨t.cur.X + 1, t.cur.Y⟩ }
  | Call.CursorPreviousLine n => { t with cur := ⟨1, t.cur.Y - n⟩ }
  | Call.CursorNextLine n => { t with cur := ⟨1, t.cur.Y + n⟩ }
  | Call.CursorForward n => { t with cur := ⟨min (t.cur.X + n) W, t.cur.Y⟩ }
  | Call.CursorBack n => { t with cur := ⟨max (t.cur.X - n) 1, t.cur.Y⟩ }
  | Call.CursorUp n => { t with cur := ⟨t.cur.X, t.cur.Y - n⟩ }
  | Call.EraseLineEnd => t
  | Call.CursorSave => { t with saved := t.cur }
  | Call.CursorRestore => { t with cur := t.saved }
  | Call.soundBell => t

/-- The terminal cursor after a sequence of renderer calls. -/
def Screen.run (W : Int) (t : Screen) (calls : List Call) : Screen :=
  calls.foldl (Screen.apply W) t

/-- The row-major cell position `(Y-1)*W + (X-1)` of a cursor position. -/
def cellPos (W : Int) (c : Coord) : Int :=
  (c.Y - 1) * W + (c.X - 1)

/-- No character of the buffer is a control character or the ignore key. -/
def State.Clean (K : Keys) (s : State) : Prop :=
  ∀ c ∈ s.line, IsControl c = false ∧ c ≠ K.IgnoreKey

/-- The calls issued by the re-print loop of the mid-line insert (lines 248-265)
from the cursor `cur` over the characters `chars`. -/
def reprintOut (size : Coord) (mask : Rune) (cur : Coord) (chars : List Rune) : List Call :=
  (chars.foldl (reprintStep size mask) (cur, [])).2

/-- The simulated cursor after one iteration of the re-print loop. -/
def reprintCursor (size : Coord) (cur : Coord) : Coord :=
  if cur.X = size.X then ⟨1 + 1, cur.Y + 1⟩ else ⟨cur.X + 1, cur.Y⟩

/-- The calls of one iteration of the re-print loop. -/
def reprintCalls (size : Coord) (mask : Rune) (cur : Coord) (char : Rune) : List Call :=
  (if cur.X = size.X then [Call.CursorNextLine 1, Call.EraseLineEnd] else [])
    ++ [showChar mask char]

/-- The cursor after one ArrowLeft step, as the oracle of the next ArrowLeft key
reports it: column `W` of the previous row after a step taken from column 1,
one column less otherwise. -/
def followLeft (size : Coord) (c : Coord) : Coord :=
  if c.X = 1 then ⟨size.X, c.Y - 1⟩ else ⟨c.X - 1, c.Y⟩

/-- The oracle that reports `start` at query `q0` and follows the cursor through
the ArrowLeft steps after it. -/
def leftOracle (size : Coord) (start : Coord) (q0 : Nat) : Nat → Coord :=
  fun n => (followLeft size)^[n - q0] start

/-- The cursor-movement calls of `n` successive ArrowLeft keys (lines 123-128)
from the cursor `c`, the oracle following the cursor. -/
def leftCalls (size : Coord) : Nat → Coord → List Call
  | 0, _ => []
  | n + 1, c =>
    (if c.CursorIsAtLineBegin then [Call.CursorUp 1, Call.CursorForward size.X]
      else [Call.CursorBack 1]) ++ leftCalls size n (followLeft size c)

/-- The call `CursorUp(n)` replaced by `CursorPreviousLine(n)`, the other calls
kept. -/
def upToPreviousLine : Call → Call
  | Call.CursorUp n => Call.CursorPreviousLine n
  | c => c

/-! ## Lemmas on the loops, the slices and the key tests -/

theorem sliceTo_of_bounds (l : List Rune) (hi : Int) (h0 : 0 ≤ hi) (h1 : hi ≤ l.length) :
    sliceTo l hi = some (l.take hi.toNat) := by
  simp [sliceTo, h0, h1]

theorem sliceFrom_of_bounds (l : List Rune) (lo : Int) (h0 : 0 ≤ lo) (h1 : lo ≤ l.length) :
    sliceFrom l lo = some (l.drop lo.toNat) := by
  simp [sliceFrom, h0, h1]

theorem homeBody_index (size : Coord) (p : Coord × State) :
    (homeBody size p).2.index = p.2.index - 1 := by
  unfold homeBody; split <;> rfl

theorem homeBody_line (size : Coord) (p : Coord × State) :
    (homeBody size p).2.line = p.2.line := by
  unfold homeBody; split <;> rfl

theorem homeBody_queries (size : Coord) (p : Coord × State) :
    (homeBody size p).2.queries = p.2.queries := by
  unfold homeBody; split <;> rfl

theorem homeBody_iters (size : Coord) (p : Coord × State) :
    (homeBody size p).2.iters = p.2.iters + 1 := by
  unfold homeBody; split <;> rfl

theorem endBody_index (size : Coord) (p : Coord × State) :
    (endBody size p).2.index = p.2.index + 1 := by
  unfold endBody; split <;> rfl

theorem endBody_line (size : Coord) (p : Coord × State) :
    (endBody size p).2.line = p.2.line := by
  unfold endBody; split <;> rfl

theorem endBody_queries (size : Coord) (p : Coord × State) :
    (endBody size p).2.queries = p.2.queries := by
  unfold endBody; split <;> rfl

theorem endBody_iters (size : Coord) (p : Coord × State) :
    (endBody size p).2.iters = p.2.iters + 1 := by
  unfold endBody; split <;> rfl

/-- What the Home loop leaves when it finishes, from a non-negative index. -/
theorem homeLoop_result (size : Coord) :
    ∀ (fuel : Nat) (p q : Coord × State), homeLoop size fuel p = some q → 0 ≤ p.2.index →
      q.2.index = 0 ∧ q.2.line = p.2.line ∧ q.2.queries = p.2.queries ∧
      q.2.iters = p.2.iters + p.2.index.toNat := by
  intro fuel
  induction fuel with
  | zero =>
    intro p q h h0
    simp only [homeLoop] at h
    split at h
    · simp at h
    · have hq : q = p := by simpa using h.symm
      subst hq
      have : q.2.index = 0 := by omega
      simp [this]
  | succ n ih =>
    intro p q h h0
    simp only [homeLoop] at h
    split at h
    · rename_i hpos
      have := ih (homeBody size p) q h (by rw [homeBody_index]; omega)
      rw [homeBody_index, homeBody_line, homeBody_queries, homeBody_iters] at this
      refine ⟨this.1, this.2.1, this.2.2.1, ?_⟩
      rw [this.2.2.2]; omega
    · have hq : q = p := by simpa using h.symm
      subst hq
      have : q.2.index = 0 := by omega
      simp [this]

/-- The Home loop finishes within `index` iterations. -/
theorem homeLoop_total (size : Coord) :
    ∀ (fuel : Nat) (p : Coord × State), p.2.index.toNat ≤ fuel →
      ∃ q, homeLoop size fuel p = some q := by
  intro fuel
  induction fuel with
  | zero =>
    intro p h
    have : ¬ p.2.index > 0 := by omega
    exact ⟨p, by simp [homeLoop, this]⟩
  | succ n ih =>
    intro p h
    by_cases hpos : p.2.index > 0
    · obtain ⟨q, hq⟩ := ih (homeBody size p) (by rw [homeBody_index]; omega)
      exact ⟨q, by simp [homeLoop, hpos, hq]⟩
    · exact ⟨p, by simp [homeLoop, hpos]⟩

/-- What the End loop leaves when it finishes. -/
theorem endLoop_result (size : Coord) :
    ∀ (fuel : Nat) (p q : Coord × State), endLoop size fuel p = some q →
      q.2.index = p.2.line.length ∧ q.2.line = p.2.line ∧ q.2.queries = p.2.queries ∧
      p.2.index ≤ p.2.line.length ∧
      q.2.iters = p.2.iters + ((p.2.line.length : Int) - p.2.index).toNat := by
  intro fuel
  induction fuel with
  | zero =>
    intro p q h
    simp only [homeLoop, endLoop] at h
    split at h
    · simp at h
    · rename_i hne
      have hq : q = p := by simpa using h.symm
      subst hq
      have : q.2.index = q.2.line.length := by simpa using hne
      simp [this]
  | succ n ih =>
    intro p q h
    simp only [endLoop] at h
    split at h
    · have := ih (endBody size p) q h
      rw [endBody_index, endBody_line, endBody_queries, endBody_iters] at this
      refine ⟨this.1, this.2.1, this.2.2.1, by omega, ?_⟩
      rw [this.2.2.2.2]; omega
    · rename_i hne
      have hq : q = p := by simpa using h.symm
      subst hq
      have : q.2.index = q.2.line.length := by simpa using hne
      simp [this]

/-- The End loop finishes within `len(line) - index` iterations when the index
is not past the end. -/
theorem endLoop_total (size : Coord) :
    ∀ (fuel : Nat) (p : Coord × State), p.2.index ≤ p.2.line.length →
      ((p.2.line.length : Int) - p.2.index).toNat ≤ fuel →
      ∃ q, endLoop size fuel p = some q := by
  intro fuel
  induction fuel with
  | zero =>
    intro p hle h
    have : p.2.index = p.2.line.length := by omega
    exact ⟨p, by simp [endLoop, this]⟩
  | succ n ih =>
    intro p hle h
    by_cases hne : p.2.index = p.2.line.length
    · exact ⟨p, by simp [endLoop, hne]⟩
    · obtain ⟨q, hq⟩ := ih (endBody size p)
        (by rw [endBody_index, endBody_line]; omega)
        (by rw [endBody_index, endBody_line]; omega)
      exact ⟨q, by simp [endLoop, hne, hq]⟩

/-- The backward delete inside the line: the character before the cursor goes. -/
theorem backspaceKey_delete (size cur : Coord) (s : State)
    (h0 : 0 < s.index) (h1 : s.index ≤ s.line.length) :
    ∃ s1, backspaceKey size cur s = some s1 ∧
      s1.line = s.line.take (s.index - 1).toNat ++ s.line.drop s.index.toNat ∧
      s1.index = s.index - 1 ∧ s1.queries = s.queries ∧ s1.iters = s.iters := by
  have hlen : (s.line.length : Int) > 0 := by omega
  by_cases htail : s.index = s.line.length
  · simp only [backspaceKey, h0, hlen, htail, and_self, if_true]
    rw [sliceTo_of_bounds _ _ (by omega) (by omega)]
    exact ⟨_, rfl, by simp, rfl, rfl, rfl⟩
  · have hfront := sliceTo_of_bounds s.line (s.index - 1) (by omega) (by omega)
    have hback := sliceFrom_of_bounds s.line s.index (by omega) h1
    have hrest := sliceFrom_of_bounds
      (s.line.take (s.index - 1).toNat ++ s.line.drop s.index.toNat) (s.index - 1)
      (by omega) (by simp only [List.length_append, List.length_take, List.length_drop]; omega)
    simp only [backspaceKey, h0, hlen, htail, and_self, if_true, if_false, hfront, hback,
      Option.some_bind, hrest, Option.map_some']
    exact ⟨_, rfl, rfl, rfl, rfl, rfl⟩

/-- The backward delete at the start of the line or on an empty line: the bell. -/
theorem backspaceKey_bell (size cur : Coord) (s : State)
    (h : s.index = 0 ∨ s.line = []) :
    backspaceKey size cur s = some { s with out := s.out ++ [Call.soundBell] } := by
  have : ¬ (s.index > 0 ∧ (s.line.length : Int) > 0) := by
    rcases h with h | h
    · omega
    · simp [h]
  simp only [backspaceKey, this, if_false]

/-- The forward delete inside the line: the character under the cursor goes. -/
theorem specialDeleteKey_delete (s : State)
    (h0 : 0 ≤ s.index) (h1 : s.index < s.line.length) :
    ∃ s1, specialDeleteKey s = some s1 ∧
      s1.line = s.line.take s.index.toNat ++ s.line.drop (s.index + 1).toNat ∧
      s1.index = s.index ∧ s1.queries = s.queries ∧ s1.iters = s.iters := by
  have hne : s.index ≠ s.line.length := by omega
  have hfront := sliceTo_of_bounds s.line s.index h0 (by omega)
  have hback := sliceFrom_of_bounds s.line (s.index + 1) (by omega) (by omega)
  have hrest := sliceFrom_of_bounds
    (s.line.take s.index.toNat ++ s.line.drop (s.index + 1).toNat) s.index
    h0 (by simp only [List.length_append, List.length_take, List.length_drop]; omega)
  simp only [specialDeleteKey, hne, ne_eq, not_false_eq_true, if_true, hfront, hback,
    Option.some_bind, hrest, Option.map_some']
  exact ⟨_, rfl, rfl, rfl, rfl, rfl⟩

/-- The forward delete at the end of the line does nothing. -/
theorem specialDeleteKey_end (s : State) (h : s.index = s.line.length) :
    specialDeleteKey s = some s := by
  simp [specialDeleteKey, h]

/-- A regular key at a valid index: the character is spliced in at the cursor. -/
theorem regularKey_insert (size cur : Coord) (mask : Rune) (oracle : Nat → Coord)
    (s : State) (r : Rune) (h0 : 0 ≤ s.index) (h1 : s.index ≤ s.line.length) :
    ∃ s1, regularKey size cur mask oracle s r = some s1 ∧
      s1.line = s.line.take s.index.toNat ++ [r] ++ s.line.drop s.index.toNat ∧
      s1.index = s.index + 1 ∧ s1.iters = s.iters := by
  by_cases htail : s.index = s.line.length
  · simp only [regularKey, htail, if_true]
    exact ⟨_, rfl, by simp, rfl, rfl⟩
  · have hfront := sliceTo_of_bounds s.line s.index h0 h1
    have hback := sliceFrom_of_bounds s.line s.index h0 h1
    have hrest := sliceFrom_of_bounds
      (s.line.take s.index.toNat ++ ([r] ++ s.line.drop s.index.toNat)) s.index
      h0 (by simp only [List.length_append, List.length_take, List.length_drop,
              List.length_singleton]; omega)
    simp only [regularKey, htail, if_false, hfront, hback, Option.some_bind, hrest,
      Option.map_some']
    exact ⟨_, rfl, by simp, rfl, rfl⟩

theorem backspaceKey_inv (size cur : Coord) (s : State) (hs : s.Inv) :
    ∃ s1, backspaceKey size cur s = some s1 ∧ s1.Inv ∧ s1.line.length ≤ s.line.length + 1 := by
  obtain ⟨h0, h1⟩ := hs
  by_cases hpos : 0 < s.index
  · obtain ⟨s1, he, hl, hi, -, -⟩ := backspaceKey_delete size cur s hpos h1
    refine ⟨s1, he, ⟨by omega, ?_⟩, ?_⟩
    · rw [hl, hi]; simp only [List.length_append, List.length_take, List.length_drop]; omega
    · rw [hl]; simp only [List.length_append, List.length_take, List.length_drop]; omega
  · have hz : s.index = 0 := by omega
    refine ⟨_, backspaceKey_bell size cur s (Or.inl hz), ⟨h0, h1⟩, by simp⟩

theorem arrowLeftKey_inv (size cur : Coord) (s : State) (hs : s.Inv) :
    (arrowLeftKey size cur s).Inv ∧ (arrowLeftKey size cur s).line = s.line := by
  obtain ⟨h0, h1⟩ := hs
  unfold arrowLeftKey
  split
  · exact ⟨⟨by dsimp only; omega, by dsimp only; omega⟩, rfl⟩
  · exact ⟨⟨h0, h1⟩, rfl⟩

theorem arrowRightKey_inv (size cur : Coord) (s : State) (hs : s.Inv) :
    (arrowRightKey size cur s).Inv ∧ (arrowRightKey size cur s).line = s.line := by
  obtain ⟨h0, h1⟩ := hs
  unfold arrowRightKey
  split
  · exact ⟨⟨by dsimp only; omega, by dsimp only; omega⟩, rfl⟩
  · exact ⟨⟨h0, h1⟩, rfl⟩

theorem specialDeleteKey_inv (s : State) (hs : s.Inv) :
    ∃ s1, specialDeleteKey s = some s1 ∧ s1.Inv ∧ s1.line.length ≤ s.line.length + 1 := by
  obtain ⟨h0, h1⟩ := hs
  by_cases hlt : s.index < s.line.length
  · obtain ⟨s1, he, hl, hi, -, -⟩ := specialDeleteKey_delete s h0 hlt
    refine ⟨s1, he, ⟨by omega, ?_⟩, ?_⟩
    · rw [hl, hi]; simp only [List.length_append, List.length_take, List.length_drop]; omega
    · rw [hl]; simp only [List.length_append, List.length_take, List.length_drop]; omega
  · exact ⟨s, specialDeleteKey_end s (by omega), ⟨h0, h1⟩, by omega⟩

theorem regularKey_inv (size cur : Coord) (mask : Rune) (oracle : Nat → Coord)
    (s : State) (r : Rune) (hs : s.Inv) :
    ∃ s1, regularKey size cur mask oracle s r = some s1 ∧ s1.Inv ∧
      s1.line.length ≤ s.line.length + 1 := by
  obtain ⟨h0, h1⟩ := hs
  obtain ⟨s1, he, hl, hi, -⟩ := regularKey_insert size cur mask oracle s r h0 h1
  refine ⟨s1, he, ⟨by omega, ?_⟩, ?_⟩
  · rw [hl, hi]
    simp only [List.length_append, List.length_take, List.length_drop, List.length_singleton]
    omega
  · rw [hl]
    simp only [List.length_append, List.length_take, List.length_drop, List.length_singleton]
    omega

section Dispatch

variable (K : Keys) (size : Coord) (mask : Rune) (fuel : Nat) (oracle : Nat → Coord)
  (s : State) (r : Rune)

theorem handleKey_enter (h : r = 13 ∨ r = 10 ∨ r = K.KeyEndTransmission) :
    handleKey K size mask fuel oracle s r =
      some (Outcome.ret ⟨s.line, none⟩
        { s with queries := s.queries + 1, out := s.out ++ [Call.Print "\r\n"] }) := by
  unfold handleKey; dsimp only; rw [if_pos h]

theorem handleKey_interrupt (h1 : ¬(r = 13 ∨ r = 10 ∨ r = K.KeyEndTransmission))
    (h : r = K.KeyInterrupt) :
    handleKey K size mask fuel oracle s r =
      some (Outcome.ret ⟨s.line, some GoError.InterruptErr⟩
        { s with queries := s.queries + 1, out := s.out ++ [Call.Print "\r\n"] }) := by
  unfold handleKey; dsimp only; rw [if_neg h1, if_pos h]

theorem handleKey_backspace (h1 : ¬(r = 13 ∨ r = 10 ∨ r = K.KeyEndTransmission))
    (h2 : r ≠ K.KeyInterrupt) (h : r = K.KeyBackspace ∨ r = K.KeyDelete) :
    handleKey K size mask fuel oracle s r =
      (backspaceKey size (oracle s.queries) { s with queries := s.queries + 1 }).map
        Outcome.next := by
  unfold handleKey; dsimp only; rw [if_neg h1, if_neg h2, if_pos h]

theorem handleKey_arrowLeft (h1 : ¬(r = 13 ∨ r = 10 ∨ r = K.KeyEndTransmission))
    (h2 : r ≠ K.KeyInterrupt) (h3 : ¬(r = K.KeyBackspace ∨ r = K.KeyDelete))
    (h : r = K.KeyArrowLeft) :
    handleKey K size mask fuel oracle s r =
      some (Outcome.next
        (arrowLeftKey size (oracle s.queries) { s with queries := s.queries + 1 })) := by
  unfold handleKey; dsimp only; rw [if_neg h1, if_neg h2, if_neg h3, if_pos h]

theorem handleKey_arrowRight (h1 : ¬(r = 13 ∨ r = 10 ∨ r = K.KeyEndTransmission))
    (h2 : r ≠ K.KeyInterrupt) (h3 : ¬(r = K.KeyBackspace ∨ r = K.KeyDelete))
    (h4 : r ≠ K.KeyArrowLeft) (h : r = K.KeyArrowRight) :
    handleKey K size mask fuel oracle s r =
      some (Outcome.next
        (arrowRightKey size (oracle s.queries) { s with queries := s.queries + 1 })) := by
  unfold handleKey; dsimp only; rw [if_neg h1, if_neg h2, if_neg h3, if_neg h4, if_pos h]

theorem handleKey_home (h1 : ¬(r = 13 ∨ r = 10 ∨ r = K.KeyEndTransmission))
    (h2 : r ≠ K.KeyInterrupt) (h3 : ¬(r = K.KeyBackspace ∨ r = K.KeyDelete))
    (h4 : r ≠ K.KeyArrowLeft) (h5 : r ≠ K.KeyArrowRight) (h : r = K.SpecialKeyHome) :
    handleKey K size mask fuel oracle s r =
      (homeLoop size fuel (oracle s.queries, { s with queries := s.queries + 1 })).map
        fun p => Outcome.next p.2 := by
  unfold handleKey; dsimp only
  rw [if_neg h1, if_neg h2, if_neg h3, if_neg h4, if_neg h5, if_pos h]

theorem handleKey_end (h1 : ¬(r = 13 ∨ r = 10 ∨ r = K.KeyEndTransmission))
    (h2 : r ≠ K.KeyInterrupt) (h3 : ¬(r = K.KeyBackspace ∨ r = K.KeyDelete))
    (h4 : r ≠ K.KeyArrowLeft) (h5 : r ≠ K.KeyArrowRight) (h6 : r ≠ K.SpecialKeyHome)
    (h : r = K.SpecialKeyEnd) :
    handleKey K size mask fuel oracle s r =
      (endLoop size fuel (oracle s.queries, { s with queries := s.queries + 1 })).map
        fun p => Outcome.next p.2 := by
  unfold handleKey; dsimp only
  rw [if_neg h1, if_neg h2, if_neg h3, if_neg h4, if_neg h5, if_neg h6, if_pos h]

theorem handleKey_specialDelete (h1 : ¬(r = 13 ∨ r = 10 ∨ r = K.KeyEndTransmission))
    (h2 : r ≠ K.KeyInterrupt) (h3 : ¬(r = K.KeyBackspace ∨ r = K.KeyDelete))
    (h4 : r ≠ K.KeyArrowLeft) (h5 : r ≠ K.KeyArrowRight) (h6 : r ≠ K.SpecialKeyHome)
    (h7 : r ≠ K.SpecialKeyEnd) (h : r = K.SpecialKeyDelete) :
    handleKey K size mask fuel oracle s r =
      (specialDeleteKey { s with queries := s.queries + 1 }).map Outcome.next := by
  unfold handleKey; dsimp only
  rw [if_neg h1, if_neg h2, if_neg h3, if_neg h4, if_neg h5, if_neg h6, if_neg h7, if_pos h]

theorem handleKey_ignore (h1 : ¬(r = 13 ∨ r = 10 ∨ r = K.KeyEndTransmission))
    (h2 : r ≠ K.KeyInterrupt) (h3 : ¬(r = K.KeyBackspace ∨ r = K.KeyDelete))
    (h4 : r ≠ K.KeyArrowLeft) (h5 : r ≠ K.KeyArrowRight) (h6 : r ≠ K.SpecialKeyHome)
    (h7 : r ≠ K.SpecialKeyEnd) (h8 : r ≠ K.SpecialKeyDelete)
    (h : IsControl r = true ∨ r = K.IgnoreKey) :
    handleKey K size mask fuel oracle s r =
      some (Outcome.next { s with queries := s.queries + 1 }) := by
  unfold handleKey; dsimp only
  rw [if_neg h1, if_neg h2, if_neg h3, if_neg h4, if_neg h5, if_neg h6, if_neg h7, if_neg h8,
    if_pos h]

theorem handleKey_regular (h : K.Regular r) :
    handleKey K size mask fuel oracle s r =
      (regularKey size (oracle s.queries) mask oracle { s with queries := s.queries + 1 } r).map
        Outcome.next := by
  obtain ⟨a1, a2, a3, a4, a5, a6, a7, a8, a9, a10, a11, a12, a13⟩ := h
  unfold handleKey; dsimp only
  rw [if_neg (by simp [a1, a2, a3]), if_neg a4, if_neg (by simp [a5, a6]), if_neg a7,
    if_neg a8, if_neg a9, if_neg a10, if_neg a11, if_neg (by simp [a12, a13])]

end Dispatch

/-- One key from a state within bounds: any outcome is within bounds and the
line grew by at most one character; with fuel for the line there is an
outcome. -/
theorem handleKey_inv (K : Keys) (size : Coord) (mask : Rune) (fuel : Nat)
    (oracle : Nat → Coord) (s : State) (r : Rune) (hs : s.Inv) :
    (∀ o, handleKey K size mask fuel oracle s r = some o →
        o.state.Inv ∧ o.state.line.length ≤ s.line.length + 1) ∧
    (s.line.length ≤ fuel → ∃ o, handleKey K size mask fuel oracle s r = some o) := by
  have hs1 : State.Inv { s with queries := s.queries + 1 } := hs
  obtain ⟨h0, h1⟩ := hs
  by_cases c1 : r = 13 ∨ r = 10 ∨ r = K.KeyEndTransmission
  · rw [handleKey_enter K size mask fuel oracle s r c1]
    exact ⟨fun o h => by cases h; exact ⟨⟨h0, h1⟩, by simp [Outcome.state]⟩, fun _ => ⟨_, rfl⟩⟩
  by_cases c2 : r = K.KeyInterrupt
  · rw [handleKey_interrupt K size mask fuel oracle s r c1 c2]
    exact ⟨fun o h => by cases h; exact ⟨⟨h0, h1⟩, by simp [Outcome.state]⟩, fun _ => ⟨_, rfl⟩⟩
  by_cases c3 : r = K.KeyBackspace ∨ r = K.KeyDelete
  · rw [handleKey_backspace K size mask fuel oracle s r c1 c2 c3]
    obtain ⟨s1, he, hi, hl⟩ := backspaceKey_inv size (oracle s.queries) _ hs1
    rw [he]
    exact ⟨fun o h => by cases h; exact ⟨hi, hl⟩, fun _ => ⟨_, rfl⟩⟩
  by_cases c4 : r = K.KeyArrowLeft
  · rw [handleKey_arrowLeft K size mask fuel oracle s r c1 c2 c3 c4]
    have := arrowLeftKey_inv size (oracle s.queries) _ hs1
    exact ⟨fun o h => by cases h; exact ⟨this.1, by simp [Outcome.state, this.2]⟩,
      fun _ => ⟨_, rfl⟩⟩
  by_cases c5 : r = K.KeyArrowRight
  · rw [handleKey_arrowRight K size mask fuel oracle s r c1 c2 c3 c4 c5]
    have := arrowRightKey_inv size (oracle s.queries) _ hs1
    exact ⟨fun o h => by cases h; exact ⟨this.1, by simp [Outcome.state, this.2]⟩,
      fun _ => ⟨_, rfl⟩⟩
  by_cases c6 : r = K.SpecialKeyHome
  · rw [handleKey_home K size mask fuel oracle s r c1 c2 c3 c4 c5 c6]
    constructor
    · intro o h
      rw [Option.map_eq_some'] at h
      obtain ⟨q, hq, rfl⟩ := h
      obtain ⟨hi, hl, -, -⟩ := homeLoop_result size fuel _ q hq h0
      refine ⟨⟨by simp [Outcome.state, hi], by simp [Outcome.state, hi]⟩, ?_⟩
      simp [Outcome.state, hl]
    · intro hf
      obtain ⟨q, hq⟩ := homeLoop_total size fuel
        (oracle s.queries, { s with queries := s.queries + 1 }) (by dsimp only; omega)
      exact ⟨_, by rw [hq]; rfl⟩
  by_cases c7 : r = K.SpecialKeyEnd
  · rw [handleKey_end K size mask fuel oracle s r c1 c2 c3 c4 c5 c6 c7]
    constructor
    · intro o h
      rw [Option.map_eq_some'] at h
      obtain ⟨q, hq, rfl⟩ := h
      obtain ⟨hi, hl, -, -, -⟩ := endLoop_result size fuel _ q hq
      refine ⟨⟨by simp [Outcome.state, hi], by simp [Outcome.state, hi, hl]⟩, ?_⟩
      simp [Outcome.state, hl]
    · intro hf
      obtain ⟨q, hq⟩ := endLoop_total size fuel
        (oracle s.queries, { s with queries := s.queries + 1 }) h1 (by dsimp only; omega)
      exact ⟨_, by rw [hq]; rfl⟩
  by_cases c8 : r = K.SpecialKeyDelete
  · rw [handleKey_specialDelete K size mask fuel oracle s r c1 c2 c3 c4 c5 c6 c7 c8]
    obtain ⟨s1, he, hi, hl⟩ := specialDeleteKey_inv _ hs1
    rw [he]
    exact ⟨fun o h => by cases h; exact ⟨hi, hl⟩, fun _ => ⟨_, rfl⟩⟩
  by_cases c9 : IsControl r = true ∨ r = K.IgnoreKey
  · rw [handleKey_ignore K size mask fuel oracle s r c1 c2 c3 c4 c5 c6 c7 c8 c9]
    exact ⟨fun o h => by cases h; exact ⟨⟨h0, h1⟩, by simp [Outcome.state]⟩, fun _ => ⟨_, rfl⟩⟩
  · have hreg : K.Regular r := by
      simp only [not_or] at c1 c3 c9
      exact ⟨c1.1, c1.2.1, c1.2.2, c2, c3.1, c3.2, c4, c5, c6, c7, c8, by simpa using c9.1, c9.2⟩
    rw [handleKey_regular K size mask fuel oracle s r hreg]
    obtain ⟨s1, he, hi, hl⟩ := regularKey_inv size (oracle s.queries) mask oracle _ r hs1
    rw [he]
    exact ⟨fun o h => by cases h; exact ⟨hi, hl⟩, fun _ => ⟨_, rfl⟩⟩

theorem Keys.Distinct.facts {K : Keys} (hK : K.Distinct) :
    (K.KeyInterrupt ≠ 13 ∧ K.KeyInterrupt ≠ 10 ∧ K.KeyInterrupt ≠ K.KeyEndTransmission) ∧
    (K.KeyBackspace ≠ 13 ∧ K.KeyBackspace ≠ 10 ∧ K.KeyBackspace ≠ K.KeyEndTransmission ∧
      K.KeyBackspace ≠ K.KeyInterrupt) ∧
    (K.KeyDelete ≠ 13 ∧ K.KeyDelete ≠ 10 ∧ K.KeyDelete ≠ K.KeyEndTransmission ∧
      K.KeyDelete ≠ K.KeyInterrupt) ∧
    (K.KeyArrowLeft ≠ 13 ∧ K.KeyArrowLeft ≠ 10 ∧ K.KeyArrowLeft ≠ K.KeyEndTransmission ∧
      K.KeyArrowLeft ≠ K.KeyInterrupt ∧ K.KeyArrowLeft ≠ K.KeyBackspace ∧
      K.KeyArrowLeft ≠ K.KeyDelete) ∧
    (K.KeyArrowRight ≠ 13 ∧ K.KeyArrowRight ≠ 10 ∧ K.KeyArrowRight ≠ K.KeyEndTransmission ∧
      K.KeyArrowRight ≠ K.KeyInterrupt ∧ K.KeyArrowRight ≠ K.KeyBackspace ∧
      K.KeyArrowRight ≠ K.KeyDelete ∧ K.KeyArrowRight ≠ K.KeyArrowLeft) ∧
    (K.SpecialKeyHome ≠ 13 ∧ K.SpecialKeyHome ≠ 10 ∧ K.SpecialKeyHome ≠ K.KeyEndTransmission ∧
      K.SpecialKeyHome ≠ K.KeyInterrupt ∧ K.SpecialKeyHome ≠ K.KeyBackspace ∧
      K.SpecialKeyHome ≠ K.KeyDelete ∧ K.SpecialKeyHome ≠ K.KeyArrowLeft ∧
      K.SpecialKeyHome ≠ K.KeyArrowRight) ∧
    (K.SpecialKeyEnd ≠ 13 ∧ K.SpecialKeyEnd ≠ 10 ∧ K.SpecialKeyEnd ≠ K.KeyEndTransmission ∧
      K.SpecialKeyEnd ≠ K.KeyInterrupt ∧ K.SpecialKeyEnd ≠ K.KeyBackspace ∧
      K.SpecialKeyEnd ≠ K.KeyDelete ∧ K.SpecialKeyEnd ≠ K.KeyArrowLeft ∧
      K.SpecialKeyEnd ≠ K.KeyArrowRight ∧ K.SpecialKeyEnd ≠ K.SpecialKeyHome) ∧
    (K.SpecialKeyDelete ≠ 13 ∧ K.SpecialKeyDelete ≠ 10 ∧
      K.SpecialKeyDelete ≠ K.KeyEndTransmission ∧
      K.SpecialKeyDelete ≠ K.KeyInterrupt ∧ K.SpecialKeyDelete ≠ K.KeyBackspace ∧
      K.SpecialKeyDelete ≠ K.KeyDelete ∧ K.SpecialKeyDelete ≠ K.KeyArrowLeft ∧
      K.SpecialKeyDelete ≠ K.KeyArrowRight ∧ K.SpecialKeyDelete ≠ K.SpecialKeyHome ∧
      K.SpecialKeyDelete ≠ K.SpecialKeyEnd) := by
  unfold Keys.Distinct at hK
  simp only [List.nodup_cons, List.mem_cons, List.mem_singleton, not_or, List.not_mem_nil,
    not_false_eq_true, List.nodup_nil, and_true] at hK
  obtain ⟨a, b, c, d, e, f, g, h, i, j⟩ := hK
  refine ⟨⟨?_, ?_, ?_⟩, ⟨?_, ?_, ?_, ?_⟩, ⟨?_, ?_, ?_, ?_⟩, ⟨?_, ?_, ?_, ?_, ?_, ?_⟩,
    ⟨?_, ?_, ?_, ?_, ?_, ?_, ?_⟩, ⟨?_, ?_, ?_, ?_, ?_, ?_, ?_, ?_⟩,
    ⟨?_, ?_, ?_, ?_, ?_, ?_, ?_, ?_, ?_⟩, ⟨?_, ?_, ?_, ?_, ?_, ?_, ?_, ?_, ?_, ?_⟩⟩ <;>
  (intro hx; simp_all)

/-- Any run of keys from a state within bounds stays within bounds, and with
fuel for the longest line it can build it reaches a state. -/
theorem runKeys_inv (K : Keys) (size : Coord) (mask : Rune) (fuel : Nat)
    (oracle : Nat → Coord) :
    ∀ (keys : List Rune) (s : State), s.Inv →
      (∀ s1, runKeys K size mask fuel oracle keys s = some s1 → s1.Inv) ∧
      (s.line.length + keys.length ≤ fuel →
        ∃ s1, runKeys K size mask fuel oracle keys s = some s1) := by
  intro keys
  induction keys with
  | nil =>
    intro s hs
    exact ⟨fun s1 h => by cases h; exact hs, fun _ => ⟨s, rfl⟩⟩
  | cons r rest ih =>
    intro s hs
    obtain ⟨hpres, htot⟩ := handleKey_inv K size mask fuel oracle s r hs
    constructor
    · intro s1 h
      simp only [runKeys] at h
      cases ho : handleKey K size mask fuel oracle s r with
      | none => rw [ho] at h; cases h
      | some o =>
        rw [ho] at h
        cases o with
        | next s2 => exact (ih s2 (hpres _ ho).1).1 s1 h
        | ret res s2 =>
          cases h
          exact (hpres _ ho).1
    · intro hf
      simp only [List.length_cons] at hf
      obtain ⟨o, ho⟩ := htot (by omega)
      simp only [runKeys, ho]
      cases o with
      | next s2 =>
        have hb := (hpres _ ho).2
        simp only [Outcome.state] at hb
        exact (ih s2 (hpres _ ho).1).2 (by omega)
      | ret res s2 => exact ⟨s2, rfl⟩

/-- When the key constants are control characters, the keys that reach the
final branch are exactly the non-control characters. -/
theorem Keys.regular_iff_not_control (K : Keys) (hK : K.AllControl) (r : Rune) :
    K.Regular r ↔ IsControl r = false := by
  constructor
  · intro h
    exact h.2.2.2.2.2.2.2.2.2.2.2.1
  · intro h
    have hne : ∀ k, IsControl k = true → r ≠ k := by
      intro k hk hrk
      rw [hrk, hk] at h
      cases h
    unfold Keys.AllControl at hK
    simp only [List.mem_cons, List.mem_singleton, forall_eq_or_imp, forall_eq,
      List.not_mem_nil, false_implies, implies_true, and_true] at hK
    obtain ⟨a1, a2, a3, a4, a5, a6, a7, a8, a9, a10⟩ := hK
    exact ⟨hne 13 (by decide), hne 10 (by decide), hne _ a1, hne _ a2, hne _ a3, hne _ a4,
      hne _ a5, hne _ a6, hne _ a7, hne _ a8, hne _ a9, h, hne _ a10⟩

/-- The state `ReadLine` returns in is within bounds. -/
theorem ReadLineLoop_inv (K : Keys) (size : Coord) (mask : Rune) (fuel : Nat)
    (oracle : Nat → Coord) :
    ∀ (input : List ReadResult) (s : State), s.Inv →
      ∀ res s1, ReadLineLoop K size mask fuel oracle input s = some (res, s1) →
        s1.Inv ∧ res.line = s1.line := by
  intro input
  induction input with
  | nil => intro s _ res s1 h; simp [ReadLineLoop] at h
  | cons x rest ih =>
    intro s hs res s1 h
    cases x with
    | fail err =>
      simp only [ReadLineLoop, Option.some.injEq, Prod.mk.injEq] at h
      obtain ⟨rfl, rfl⟩ := h
      exact ⟨hs, rfl⟩
    | rune r =>
      simp only [ReadLineLoop] at h
      cases ho : handleKey K size mask fuel oracle s r with
      | none => rw [ho] at h; cases h
      | some o =>
        rw [ho] at h
        have hpres := ((handleKey_inv K size mask fuel oracle s r hs).1 o ho).1
        cases o with
        | next s2 => exact ih s2 hpres res s1 h
        | ret res2 s2 =>
          simp only [Option.some.injEq, Prod.mk.injEq] at h
          obtain ⟨rfl, rfl⟩ := h
          refine ⟨hpres, ?_⟩
          by_cases c1 : r = 13 ∨ r = 10 ∨ r = K.KeyEndTransmission
          · rw [handleKey_enter K size mask fuel oracle s r c1] at ho
            cases ho; rfl
          by_cases c2 : r = K.KeyInterrupt
          · rw [handleKey_interrupt K size mask fuel oracle s r c1 c2] at ho
            cases ho; rfl
          · exfalso
            unfold handleKey at ho
            dsimp only at ho
            rw [if_neg c1, if_neg c2] at ho
            split_ifs at ho <;> simp at ho

theorem State.typed_nil (mask : Rune) (s : State) : s.typed mask [] = s := by
  simp [State.typed]

/-- A regular key at the end of the line appends. -/
theorem handleKey_regular_at_end (K : Keys) (size : Coord) (mask : Rune) (fuel : Nat)
    (oracle : Nat → Coord) (s : State) (r : Rune) (hr : K.Regular r)
    (hend : s.index = s.line.length) :
    handleKey K size mask fuel oracle s r = some (Outcome.next (s.typed mask [r])) := by
  rw [handleKey_regular K size mask fuel oracle s r hr]
  simp only [regularKey, hend, if_true, Option.map_some', State.typed, showChar,
    List.length_singleton, Nat.cast_one, List.map_cons, List.map_nil]

theorem State.typed_cons (mask : Rune) (s : State) (r : Rune) (chars : List Rune) :
    (s.typed mask [r]).typed mask chars = s.typed mask (r :: chars) := by
  simp only [State.typed, List.append_assoc, List.singleton_append, List.length_singleton,
    Nat.cast_one, List.map_cons, List.map_nil, List.length_cons, Nat.cast_add,
    List.length_nil, Nat.cast_zero, State.mk.injEq, true_and, and_true]
  constructor <;> omega

theorem State.typed_at_end (mask : Rune) (s : State) (chars : List Rune)
    (hend : s.index = s.line.length) :
    (s.typed mask chars).index = (s.typed mask chars).line.length := by
  simp [State.typed, hend]

/-- Typing regular keys at the end of the line, inside `ReadLine`. -/
theorem ReadLineLoop_typed (K : Keys) (size : Coord) (mask : Rune) (fuel : Nat)
    (oracle : Nat → Coord) (more : List ReadResult) :
    ∀ (chars : List Rune) (s : State), (∀ c ∈ chars, K.Regular c) →
      s.index = s.line.length →
      ReadLineLoop K size mask fuel oracle (chars.map ReadResult.rune ++ more) s =
        ReadLineLoop K size mask fuel oracle more (s.typed mask chars) := by
  intro chars
  induction chars with
  | nil => intro s _ _; simp [State.typed_nil]
  | cons r rest ih =>
    intro s hreg hend
    have hr : K.Regular r := hreg r (List.mem_cons_self _ _)
    simp only [List.map_cons, List.cons_append, ReadLineLoop,
      handleKey_regular_at_end K size mask fuel oracle s r hr hend]
    exact (ih _ (fun c hc => hreg c (List.mem_cons_of_mem _ hc))
      (State.typed_at_end mask s [r] hend)).trans (by rw [State.typed_cons])

/-- Typing regular keys at the end of the line, key by key. -/
theorem runKeys_typed (K : Keys) (size : Coord) (mask : Rune) (fuel : Nat)
    (oracle : Nat → Coord) (more : List Rune) :
    ∀ (chars : List Rune) (s : State), (∀ c ∈ chars, K.Regular c) →
      s.index = s.line.length →
      runKeys K size mask fuel oracle (chars ++ more) s =
        runKeys K size mask fuel oracle more (s.typed mask chars) := by
  intro chars
  induction chars with
  | nil => intro s _ _; simp [State.typed_nil]
  | cons r rest ih =>
    intro s hreg hend
    have hr : K.Regular r := hreg r (List.mem_cons_self _ _)
    simp only [List.cons_append, runKeys,
      handleKey_regular_at_end K size mask fuel oracle s r hr hend]
    exact (ih _ (fun c hc => hreg c (List.mem_cons_of_mem _ hc))
      (State.typed_at_end mask s [r] hend)).trans (by rw [State.typed_cons])

section KeyDispatch

variable (K : Keys) (size : Coord) (mask : Rune) (fuel : Nat) (oracle : Nat → Coord)
  (s : State)

theorem handleKey_deleteBackward (hK : K.Distinct) (r : Rune)
    (hr : r = K.KeyBackspace ∨ r = K.KeyDelete) :
    handleKey K size mask fuel oracle s r =
      (backspaceKey size (oracle s.queries) { s with queries := s.queries + 1 }).map
        Outcome.next := by
  obtain ⟨-, hb, hd, -⟩ := hK.facts
  have hne : ¬(r = 13 ∨ r = 10 ∨ r = K.KeyEndTransmission) := by
    rcases hr with rfl | rfl
    · simp [hb.1, hb.2.1, hb.2.2.1]
    · simp [hd.1, hd.2.1, hd.2.2.1]
  have hni : r ≠ K.KeyInterrupt := by
    rcases hr with rfl | rfl
    · exact hb.2.2.2
    · exact hd.2.2.2
  exact handleKey_backspace K size mask fuel oracle s r hne hni hr

theorem handleKey_left (hK : K.Distinct) :
    handleKey K size mask fuel oracle s K.KeyArrowLeft =
      some (Outcome.next
        (arrowLeftKey size (oracle s.queries) { s with queries := s.queries + 1 })) := by
  obtain ⟨-, -, -, ⟨d1, d2, d3, d4, d5, d6⟩, -⟩ := hK.facts
  exact handleKey_arrowLeft K size mask fuel oracle s _ (by simp [d1, d2, d3]) d4
    (by simp [d5, d6]) rfl

theorem handleKey_right (hK : K.Distinct) :
    handleKey K size mask fuel oracle s K.KeyArrowRight =
      some (Outcome.next
        (arrowRightKey size (oracle s.queries) { s with queries := s.queries + 1 })) := by
  obtain ⟨-, -, -, -, ⟨d1, d2, d3, d4, d5, d6, d7⟩, -⟩ := hK.facts
  exact handleKey_arrowRight K size mask fuel oracle s _ (by simp [d1, d2, d3]) d4
    (by simp [d5, d6]) d7 rfl

theorem handleKey_homeKey (hK : K.Distinct) :
    handleKey K size mask fuel oracle s K.SpecialKeyHome =
      (homeLoop size fuel (oracle s.queries, { s with queries := s.queries + 1 })).map
        fun p => Outcome.next p.2 := by
  obtain ⟨-, -, -, -, -, ⟨d1, d2, d3, d4, d5, d6, d7, d8⟩, -⟩ := hK.facts
  exact handleKey_home K size mask fuel oracle s _ (by simp [d1, d2, d3]) d4
    (by simp [d5, d6]) d7 d8 rfl

theorem handleKey_endKey (hK : K.Distinct) :
    handleKey K size mask fuel oracle s K.SpecialKeyEnd =
      (endLoop size fuel (oracle s.queries, { s with queries := s.queries + 1 })).map
        fun p => Outcome.next p.2 := by
  obtain ⟨-, -, -, -, -, -, ⟨d1, d2, d3, d4, d5, d6, d7, d8, d9⟩, -⟩ := hK.facts
  exact handleKey_end K size mask fuel oracle s _ (by simp [d1, d2, d3]) d4
    (by simp [d5, d6]) d7 d8 d9 rfl

theorem handleKey_deleteForward (hK : K.Distinct) :
    handleKey K size mask fuel oracle s K.SpecialKeyDelete =
      (specialDeleteKey { s with queries := s.queries + 1 }).map Outcome.next := by
  obtain ⟨-, -, -, -, -, -, -, ⟨d1, d2, d3, d4, d5, d6, d7, d8, d9, d10⟩⟩ := hK.facts
  exact handleKey_specialDelete K size mask fuel oracle s _ (by simp [d1, d2, d3]) d4
    (by simp [d5, d6]) d7 d8 d9 d10 rfl

end KeyDispatch

/-- Backward deletes at the end of the line peel characters off its end. -/
theorem runKeys_deleteBackward_at_end (K : Keys) (size : Coord) (mask : Rune) (fuel : Nat)
    (oracle : Nat → Coord) (hK : K.Distinct) :
    ∀ (dels : List Rune) (s : State), (∀ d ∈ dels, d = K.KeyBackspace ∨ d = K.KeyDelete) →
      s.index = s.line.length → dels.length ≤ s.line.length →
      ∃ s1, runKeys K size mask fuel oracle dels s = some s1 ∧
        s1.line = s.line.take (s.line.length - dels.length) ∧
        s1.index = ((s.line.length - dels.length : Nat) : Int) := by
  intro dels
  induction dels with
  | nil =>
    intro s _ hend _
    exact ⟨s, rfl, by simp, by simpa using hend⟩
  | cons d rest ih =>
    intro s hd hend hlen
    simp only [List.length_cons] at hlen
    obtain ⟨s1, he, hl, hi, -, -⟩ := backspaceKey_delete size (oracle s.queries)
      { s with queries := s.queries + 1 } (by dsimp only; omega) (by dsimp only; omega)
    dsimp only at hl hi
    have hl1 : s1.line = s.line.take (s.line.length - 1) := by
      rw [hl, hend]
      have e1 : ((s.line.length : Int) - 1).toNat = s.line.length - 1 := by omega
      simp [e1]
    have hlen1 : s1.line.length = s.line.length - 1 := by
      rw [hl1, List.length_take]; omega
    obtain ⟨s2, he2, hl2, hi2⟩ := ih s1 (fun x hx => hd x (List.mem_cons_of_mem _ hx))
      (by rw [hi, hlen1, hend]; omega) (by rw [hlen1]; omega)
    refine ⟨s2, ?_, ?_, ?_⟩
    · simp only [runKeys, handleKey_deleteBackward K size mask fuel oracle s hK d
        (hd d (List.mem_cons_self _ _)), he, Option.map_some']
      exact he2
    · rw [hl2, hlen1, hl1, List.take_take, List.length_cons]
      congr 1
      omega
    · rw [hi2, hlen1, List.length_cons]
      congr 1
      omega

/-! ## The claims -/

/-- Claim C1. Starting from the empty line with index 0, after every sequence of
keys handled by `ReadLine`, whatever the cursor oracle answers, the state
satisfies `0 ≤ index ≤ len(line)`; with fuel for the Home and End loops (one
unit per key suffices) every key sequence does reach a state; and the state
in which `ReadLine` returns satisfies the same bounds. -/
theorem readLine_index_within_bounds (K : Keys) (size : Coord) (mask : Rune) (fuel : Nat)
    (oracle : Nat → Coord) (keys : List Rune) :
    (∀ s1, runKeys K size mask fuel oracle keys State.init = some s1 →
        0 ≤ s1.index ∧ s1.index ≤ s1.line.length) ∧
    (keys.length ≤ fuel → ∃ s1, runKeys K size mask fuel oracle keys State.init = some s1) ∧
    (∀ input res s1, ReadLine K size mask fuel oracle input = some (res, s1) →
        0 ≤ s1.index ∧ s1.index ≤ s1.line.length) := by
  have hinit : State.init.Inv := by decide
  obtain ⟨h1, h2⟩ := runKeys_inv K size mask fuel oracle keys State.init hinit
  exact ⟨h1, fun hf => h2 (by simpa [State.init] using hf),
    fun input res s1 h => (ReadLineLoop_inv K size mask fuel oracle input State.init hinit
      res s1 h).1⟩

theorem readLine_index_within_bounds_witness :
    ∃ s1, runKeys asciiKeys ⟨80, 24⟩ 0 5 (constOracle ⟨3, 1⟩) [97, 98, 99, 2, 1] State.init
        = some s1 ∧ 0 ≤ s1.index ∧ s1.index ≤ s1.line.length :=
  (readLine_index_within_bounds asciiKeys ⟨80, 24⟩ 0 5 (constOracle ⟨3, 1⟩)
      [97, 98, 99, 2, 1]).elim
    fun h1 h2 => (h2.1 (by decide)).elim fun s1 hs => ⟨s1, hs, h1 s1 hs⟩

/-- Claim C2, at its failing inputs. With mask `*` (42), after typing "ab" and
moving left once, a backward delete re-prints the true character `b` (98); and
after typing "ab" and moving left twice, a forward delete re-prints the true
character `b` as well: the re-render loops of the two deletes print the buffer
character, not the mask. -/
theorem masked_delete_rerender_prints_true_char :
    (∃ s1, runKeys asciiKeys ⟨80, 24⟩ 42 0 (constOracle ⟨3, 1⟩) [97, 98, 2, 8] State.init
        = some s1 ∧ s1.line = [98] ∧ printedChars s1.out = [42, 42, 98]) ∧
    (∃ s2, runKeys asciiKeys ⟨80, 24⟩ 42 0 (constOracle ⟨3, 1⟩) [97, 98, 2, 2, 18] State.init
        = some s2 ∧ s2.line = [98] ∧ printedChars s2.out = [42, 42, 98]) :=
  ⟨⟨_, rfl, rfl, rfl⟩, ⟨_, rfl, rfl, rfl⟩⟩

/-- Claim C3. Regular (printable) characters typed into a fresh session and
followed by an Enter key (carriage return, line feed or the end-of-input key):
`ReadLine` returns exactly the typed characters, in order, with no error, and
the last renderer call is the newline `Print("\r\n")`, after one print per typed
character. Input after the Enter key is not read. -/
theorem readLine_returns_typed_line (K : Keys) (size : Coord) (mask : Rune) (fuel : Nat)
    (oracle : Nat → Coord) (chars : List Rune) (enter : Rune) (more : List ReadResult)
    (hchars : ∀ c ∈ chars, K.Regular c)
    (henter : enter = 13 ∨ enter = 10 ∨ enter = K.KeyEndTransmission) :
    ∃ s1, ReadLine K size mask fuel oracle
        (chars.map ReadResult.rune ++ ReadResult.rune enter :: more)
        = some (⟨chars, none⟩, s1) ∧
      s1.out = chars.map (showChar mask) ++ [Call.Print "\r\n"] ∧
      s1.line = chars ∧ s1.index = chars.length := by
  unfold ReadLine
  rw [ReadLineLoop_typed K size mask fuel oracle _ chars State.init hchars rfl]
  simp only [ReadLineLoop, handleKey_enter K size mask fuel oracle _ enter henter]
  have hl : (State.init.typed mask chars).line = chars := by simp [State.typed, State.init]
  rw [hl]
  exact ⟨_, rfl, by simp [State.typed, State.init], rfl, by simp [State.typed, State.init]⟩

theorem readLine_returns_typed_line_witness :
    ∃ s1, ReadLine asciiKeys ⟨80, 24⟩ 0 0 (constOracle ⟨1, 1⟩)
        ([104, 101, 108, 108, 111].map ReadResult.rune ++ ReadResult.rune 13 :: [])
        = some (⟨[104, 101, 108, 108, 111], none⟩, s1) ∧
      s1.out = [104, 101, 108, 108, 111].map (showChar 0) ++ [Call.Print "\r\n"] ∧
      s1.line = [104, 101, 108, 108, 111] ∧ s1.index = ([104, 101, 108, 108, 111] : List Rune).length :=
  readLine_returns_typed_line asciiKeys ⟨80, 24⟩ 0 0 (constOracle ⟨1, 1⟩)
    [104, 101, 108, 108, 111] 13 [] (by decide) (by decide)

/-- Claim C4. In a state with `0 ≤ index < len(line)`, a regular (printable)
character `c` gives the buffer `line[0..index) ++ [c] ++ line[index..len)` and
the index `index + 1`, whatever the cursor oracle reports. -/
theorem insert_inside_line (K : Keys) (size : Coord) (mask : Rune) (fuel : Nat)
    (oracle : Nat → Coord) (s : State) (c : Rune)
    (h0 : 0 ≤ s.index) (h1 : s.index < s.line.length) (hc : K.Regular c) :
    ∃ s1, handleKey K size mask fuel oracle s c = some (Outcome.next s1) ∧
      s1.line = s.line.take s.index.toNat ++ [c] ++ s.line.drop s.index.toNat ∧
      s1.index = s.index + 1 := by
  rw [handleKey_regular K size mask fuel oracle s c hc]
  obtain ⟨s1, he, hl, hi, -⟩ := regularKey_insert size (oracle s.queries) mask oracle
    { s with queries := s.queries + 1 } c h0 (le_of_lt h1)
  exact ⟨s1, by rw [he]; rfl, hl, hi⟩

theorem insert_inside_line_witness :
    ∃ s1, handleKey asciiKeys ⟨80, 24⟩ 0 0 (constOracle ⟨4, 1⟩)
        ⟨[104, 101, 108, 108, 111], 3, [], 0, 0⟩ 88 = some (Outcome.next s1) ∧
      s1.line = [104, 101, 108, 88, 108, 111] ∧ s1.index = 4 :=
  insert_inside_line asciiKeys ⟨80, 24⟩ 0 0 (constOracle ⟨4, 1⟩)
    ⟨[104, 101, 108, 108, 111], 3, [], 0, 0⟩ 88 (by decide) (by decide) (by decide)

/-- Claim C5. In a state with `0 < index ≤ len(line)`, a backward-delete key
(the backspace code or the delete code) gives the buffer with exactly the
character at position `index - 1` removed, the others kept in order, and the
index `index - 1`; this covers the delete at the end of the line and the delete
inside it. -/
theorem deleteBackward_removes_previous (K : Keys) (size : Coord) (mask : Rune) (fuel : Nat)
    (oracle : Nat → Coord) (s : State) (r : Rune) (hK : K.Distinct)
    (hr : r = K.KeyBackspace ∨ r = K.KeyDelete)
    (h0 : 0 < s.index) (h1 : s.index ≤ s.line.length) :
    ∃ s1, handleKey K size mask fuel oracle s r = some (Outcome.next s1) ∧
      s1.line = s.line.eraseIdx (s.index - 1).toNat ∧
      s1.index = s.index - 1 := by
  obtain ⟨-, hb, hd, -⟩ := hK.facts
  have hne : ¬(r = 13 ∨ r = 10 ∨ r = K.KeyEndTransmission) := by
    rcases hr with rfl | rfl
    · simp [hb.1, hb.2.1, hb.2.2.1]
    · simp [hd.1, hd.2.1, hd.2.2.1]
  have hni : r ≠ K.KeyInterrupt := by
    rcases hr with rfl | rfl
    · exact hb.2.2.2
    · exact hd.2.2.2
  rw [handleKey_backspace K size mask fuel oracle s r hne hni hr]
  obtain ⟨s1, he, hl, hi, -, -⟩ := backspaceKey_delete size (oracle s.queries)
    { s with queries := s.queries + 1 } h0 h1
  refine ⟨s1, by rw [he]; rfl, ?_, hi⟩
  rw [hl, List.eraseIdx_eq_take_drop_succ]
  dsimp only
  have : (s.index - 1).toNat + 1 = s.index.toNat := by omega
  rw [this]

theorem deleteBackward_removes_previous_witness :
    ∃ s1, handleKey asciiKeys ⟨80, 24⟩ 0 0 (constOracle ⟨4, 1⟩)
        ⟨[104, 101, 108, 108, 111], 3, [], 0, 0⟩ 8 = some (Outcome.next s1) ∧
      s1.line = [104, 101, 108, 111] ∧ s1.index = 2 :=
  deleteBackward_removes_previous asciiKeys ⟨80, 24⟩ 0 0 (constOracle ⟨4, 1⟩)
    ⟨[104, 101, 108, 108, 111], 3, [], 0, 0⟩ 8 (by decide) (by decide) (by decide) (by decide)

/-- Claim C6. In a state with `0 ≤ index < len(line)`, the forward-delete key
gives the buffer with exactly the character at position `index` removed, the
others kept in order, and leaves the index unchanged. -/
theorem deleteForward_removes_current (K : Keys) (size : Coord) (mask : Rune) (fuel : Nat)
    (oracle : Nat → Coord) (s : State) (hK : K.Distinct)
    (h0 : 0 ≤ s.index) (h1 : s.index < s.line.length) :
    ∃ s1, handleKey K size mask fuel oracle s K.SpecialKeyDelete = some (Outcome.next s1) ∧
      s1.line = s.line.eraseIdx s.index.toNat ∧
      s1.index = s.index := by
  obtain ⟨-, -, -, -, -, -, -, hd⟩ := hK.facts
  obtain ⟨d1, d2, d3, d4, d5, d6, d7, d8, d9, d10⟩ := hd
  rw [handleKey_specialDelete K size mask fuel oracle s _ (by simp [d1, d2, d3]) d4
    (by simp [d5, d6]) d7 d8 d9 d10 rfl]
  obtain ⟨s1, he, hl, hi, -, -⟩ := specialDeleteKey_delete
    { s with queries := s.queries + 1 } h0 h1
  refine ⟨s1, by rw [he]; rfl, ?_, hi⟩
  rw [hl, List.eraseIdx_eq_take_drop_succ]
  dsimp only
  have : (s.index + 1).toNat = s.index.toNat + 1 := by omega
  rw [this]

theorem deleteForward_removes_current_witness :
    ∃ s1, handleKey asciiKeys ⟨80, 24⟩ 0 0 (constOracle ⟨4, 1⟩)
        ⟨[104, 101, 108, 108, 111], 3, [], 0, 0⟩ asciiKeys.SpecialKeyDelete
        = some (Outcome.next s1) ∧
      s1.line = [104, 101, 108, 111] ∧ s1.index = 3 :=
  deleteForward_removes_current asciiKeys ⟨80, 24⟩ 0 0 (constOracle ⟨4, 1⟩)
    ⟨[104, 101, 108, 108, 111], 3, [], 0, 0⟩ (by decide) (by decide) (by decide)

/-- Claim C7. For every `N ≥ 0`: typing `N` regular (printable) characters into
a fresh session and then handling `N` backward-delete keys (each the backspace
code or the delete code) leaves the buffer empty and the index 0, whatever the
cursor oracle reports. -/
theorem type_then_deleteBackward_roundtrip (K : Keys) (size : Coord) (mask : Rune)
    (fuel : Nat) (oracle : Nat → Coord) (chars dels : List Rune) (hK : K.Distinct)
    (hchars : ∀ c ∈ chars, K.Regular c)
    (hdels : ∀ d ∈ dels, d = K.KeyBackspace ∨ d = K.KeyDelete)
    (hN : dels.length = chars.length) :
    ∃ s1, runKeys K size mask fuel oracle (chars ++ dels) State.init = some s1 ∧
      s1.line = [] ∧ s1.index = 0 := by
  rw [runKeys_typed K size mask fuel oracle dels chars State.init hchars rfl]
  have hline : (State.init.typed mask chars).line = chars := by
    simp [State.typed, State.init]
  obtain ⟨s1, he, hl, hi⟩ := runKeys_deleteBackward_at_end K size mask fuel oracle hK dels
    (State.init.typed mask chars) hdels (State.typed_at_end mask _ chars rfl)
    (by rw [hline, hN])
  refine ⟨s1, he, ?_, ?_⟩
  · rw [hl, hline, hN]; simp
  · rw [hi, hline, hN]; simp

theorem type_then_deleteBackward_roundtrip_witness :
    ∃ s1, runKeys asciiKeys ⟨80, 24⟩ 0 0 (constOracle ⟨1, 1⟩) ([97, 98, 99] ++ [8, 127, 8])
        State.init = some s1 ∧ s1.line = [] ∧ s1.index = 0 :=
  type_then_deleteBackward_roundtrip asciiKeys ⟨80, 24⟩ 0 0 (constOracle ⟨1, 1⟩)
    [97, 98, 99] [8, 127, 8] (by decide) (by decide) (by decide) (by decide)

/-- Claim C8. In a state with `0 ≤ index ≤ len(line)`, for any reported cursor
position: the Home key finishes after exactly `index` iterations of its loop
with index 0, and the End key finishes after exactly `len(line) - index`
iterations of its loop with index `len(line)`; neither changes the buffer. The
loops finish as soon as the fuel covers those iteration counts. -/
theorem home_end_iterations (K : Keys) (size : Coord) (mask : Rune) (fuel : Nat)
    (oracle : Nat → Coord) (s : State) (hK : K.Distinct)
    (h0 : 0 ≤ s.index) (h1 : s.index ≤ s.line.length) :
    (s.index.toNat ≤ fuel →
      ∃ s1, handleKey K size mask fuel oracle s K.SpecialKeyHome = some (Outcome.next s1) ∧
        s1.index = 0 ∧ s1.line = s.line ∧ s1.iters = s.iters + s.index.toNat) ∧
    (s.line.length - s.index.toNat ≤ fuel →
      ∃ s2, handleKey K size mask fuel oracle s K.SpecialKeyEnd = some (Outcome.next s2) ∧
        s2.index = s.line.length ∧ s2.line = s.line ∧
        s2.iters = s.iters + (s.line.length - s.index.toNat)) := by
  constructor
  · intro hf
    rw [handleKey_homeKey K size mask fuel oracle s hK]
    obtain ⟨q, hq⟩ := homeLoop_total size fuel
      (oracle s.queries, { s with queries := s.queries + 1 }) hf
    obtain ⟨hi, hl, -, hn⟩ := homeLoop_result size fuel _ q hq h0
    exact ⟨q.2, by rw [hq]; rfl, hi, hl, hn⟩
  · intro hf
    rw [handleKey_endKey K size mask fuel oracle s hK]
    obtain ⟨q, hq⟩ := endLoop_total size fuel
      (oracle s.queries, { s with queries := s.queries + 1 }) h1 (by dsimp only; omega)
    obtain ⟨hi, hl, -, -, hn⟩ := endLoop_result size fuel _ q hq
    refine ⟨q.2, by rw [hq]; rfl, hi, hl, ?_⟩
    rw [hn]
    dsimp only
    omega

theorem home_end_iterations_witness :
    (∃ s1, handleKey asciiKeys ⟨5, 24⟩ 0 4 (constOracle ⟨2, 2⟩)
        ⟨[97, 98, 99, 100, 101, 102], 4, [], 0, 0⟩ asciiKeys.SpecialKeyHome
        = some (Outcome.next s1) ∧
      s1.index = 0 ∧ s1.line = [97, 98, 99, 100, 101, 102] ∧ s1.iters = 4) ∧
    (∃ s2, handleKey asciiKeys ⟨5, 24⟩ 0 4 (constOracle ⟨2, 2⟩)
        ⟨[97, 98, 99, 100, 101, 102], 4, [], 0, 0⟩ asciiKeys.SpecialKeyEnd
        = some (Outcome.next s2) ∧
      s2.index = 6 ∧ s2.line = [97, 98, 99, 100, 101, 102] ∧ s2.iters = 2) :=
  (home_end_iterations asciiKeys ⟨5, 24⟩ 0 4 (constOracle ⟨2, 2⟩)
      ⟨[97, 98, 99, 100, 101, 102], 4, [], 0, 0⟩ (by decide) (by decide) (by decide)).elim
    fun hh he => ⟨hh (by decide), he (by decide)⟩

/-- Claim C9. A backward-delete key when `index == 0` or the buffer is empty, an
ArrowLeft key when `index == 0`, and an ArrowRight key when
`index == len(line)`: each leaves buffer and index unchanged and issues exactly
one renderer call, the bell. -/
theorem boundary_keys_ring_bell (K : Keys) (size : Coord) (mask : Rune) (fuel : Nat)
    (oracle : Nat → Coord) (s : State) (hK : K.Distinct) :
    (∀ r, (r = K.KeyBackspace ∨ r = K.KeyDelete) → (s.index = 0 ∨ s.line = []) →
      handleKey K size mask fuel oracle s r = some (Outcome.next
        { s with queries := s.queries + 1, out := s.out ++ [Call.soundBell] })) ∧
    (s.index = 0 →
      handleKey K size mask fuel oracle s K.KeyArrowLeft = some (Outcome.next
        { s with queries := s.queries + 1, out := s.out ++ [Call.soundBell] })) ∧
    (s.index = s.line.length →
      handleKey K size mask fuel oracle s K.KeyArrowRight = some (Outcome.next
        { s with queries := s.queries + 1, out := s.out ++ [Call.soundBell] })) := by
  refine ⟨?_, ?_, ?_⟩
  · intro r hr hb
    rw [handleKey_deleteBackward K size mask fuel oracle s hK r hr,
      backspaceKey_bell size (oracle s.queries) { s with queries := s.queries + 1 } hb]
    rfl
  · intro hz
    rw [handleKey_left K size mask fuel oracle s hK]
    simp [arrowLeftKey, hz]
  · intro he
    rw [handleKey_right K size mask fuel oracle s hK]
    simp [arrowRightKey, he]

theorem boundary_keys_ring_bell_witness :
    handleKey asciiKeys ⟨80, 24⟩ 0 0 (constOracle ⟨1, 1⟩) ⟨[97, 98], 0, [], 0, 0⟩ 127
      = some (Outcome.next ⟨[97, 98], 0, [Call.soundBell], 1, 0⟩) ∧
    handleKey asciiKeys ⟨80, 24⟩ 0 0 (constOracle ⟨1, 1⟩) ⟨[97, 98], 0, [], 0, 0⟩
      asciiKeys.KeyArrowLeft = some (Outcome.next ⟨[97, 98], 0, [Call.soundBell], 1, 0⟩) ∧
    handleKey asciiKeys ⟨80, 24⟩ 0 0 (constOracle ⟨1, 1⟩) ⟨[97, 98], 2, [], 0, 0⟩
      asciiKeys.KeyArrowRight = some (Outcome.next ⟨[97, 98], 2, [Call.soundBell], 1, 0⟩) :=
  ⟨(boundary_keys_ring_bell asciiKeys ⟨80, 24⟩ 0 0 (constOracle ⟨1, 1⟩)
      ⟨[97, 98], 0, [], 0, 0⟩ (by decide)).1 127 (by decide) (by decide),
   (boundary_keys_ring_bell asciiKeys ⟨80, 24⟩ 0 0 (constOracle ⟨1, 1⟩)
      ⟨[97, 98], 0, [], 0, 0⟩ (by decide)).2.1 (by decide),
   (boundary_keys_ring_bell asciiKeys ⟨80, 24⟩ 0 0 (constOracle ⟨1, 1⟩)
      ⟨[97, 98], 2, [], 0, 0⟩ (by decide)).2.2 (by decide)⟩

/-- Claim C10, as stated, fails: the forward-delete key at the end of the line
("ab", index 2) issues no renderer call, so the bell is not rung. -/
theorem deleteForward_at_end_no_bell :
    ∃ s1, handleKey asciiKeys ⟨80, 24⟩ 0 0 (constOracle ⟨3, 1⟩) ⟨[97, 98], 2, [], 0, 0⟩
        asciiKeys.SpecialKeyDelete = some (Outcome.next s1) ∧
      s1.out.count Call.soundBell = 0 ∧ s1.out.count Call.soundBell ≠ 1 :=
  ⟨_, rfl, by decide, by decide⟩

/-- Claim C10, amended. The forward-delete key when `index == len(line)` leaves
buffer and index unchanged and issues no renderer call at all (no bell): only
the cursor query at the top of the loop body is made. -/
theorem deleteForward_at_end_silent (K : Keys) (size : Coord) (mask : Rune) (fuel : Nat)
    (oracle : Nat → Coord) (s : State) (hK : K.Distinct) (hend : s.index = s.line.length) :
    handleKey K size mask fuel oracle s K.SpecialKeyDelete =
      some (Outcome.next { s with queries := s.queries + 1 }) := by
  rw [handleKey_deleteForward K size mask fuel oracle s hK,
    specialDeleteKey_end _ (by exact hend)]
  rfl

theorem deleteForward_at_end_silent_witness :
    handleKey asciiKeys ⟨80, 24⟩ 0 0 (constOracle ⟨3, 1⟩) ⟨[97, 98], 2, [], 0, 0⟩
      asciiKeys.SpecialKeyDelete = some (Outcome.next ⟨[97, 98], 2, [], 1, 0⟩) :=
  deleteForward_at_end_silent asciiKeys ⟨80, 24⟩ 0 0 (constOracle ⟨3, 1⟩)
    ⟨[97, 98], 2, [], 0, 0⟩ (by decide) (by decide)

/-! ## Errors, masking, rendering and the cursor -/

/-- A key that is neither an Enter key nor the interrupt key never makes
`ReadLine` return. -/
theorem handleKey_next_of_not_terminating (K : Keys) (size : Coord) (mask : Rune)
    (fuel : Nat) (oracle : Nat → Coord) (s : State) (r : Rune)
    (c1 : ¬(r = 13 ∨ r = 10 ∨ r = K.KeyEndTransmission)) (c2 : r ≠ K.KeyInterrupt)
    (o : Outcome) (ho : handleKey K size mask fuel oracle s r = some o) :
    ∃ s1, o = Outcome.next s1 := by
  cases o with
  | next s1 => exact ⟨s1, rfl⟩
  | ret res s1 =>
    exfalso
    unfold handleKey at ho
    dsimp only at ho
    rw [if_neg c1, if_neg c2] at ho
    split_ifs at ho <;> simp at ho

/-- Reading keys that do not terminate the session: `ReadLine` goes on from the
state these keys lead to. -/
theorem ReadLineLoop_of_runKeys (K : Keys) (size : Coord) (mask : Rune) (fuel : Nat)
    (oracle : Nat → Coord) (more : List ReadResult) :
    ∀ (keys : List Rune) (s0 s : State),
      (∀ r ∈ keys, ¬(r = 13 ∨ r = 10 ∨ r = K.KeyEndTransmission) ∧ r ≠ K.KeyInterrupt) →
      runKeys K size mask fuel oracle keys s0 = some s →
      ReadLineLoop K size mask fuel oracle (keys.map ReadResult.rune ++ more) s0 =
        ReadLineLoop K size mask fuel oracle more s := by
  intro keys
  induction keys with
  | nil =>
    intro s0 s _ h
    simp only [runKeys, Option.some.injEq] at h
    subst h
    rfl
  | cons r rest ih =>
    intro s0 s hk h
    have hr := hk r (List.mem_cons_self _ _)
    simp only [runKeys] at h
    simp only [List.map_cons, List.cons_append, ReadLineLoop]
    cases ho : handleKey K size mask fuel oracle s0 r with
    | none => rw [ho] at h; cases h
    | some o =>
      obtain ⟨s1, rfl⟩ := handleKey_next_of_not_terminating K size mask fuel oracle s0 r
        hr.1 hr.2 o ho
      rw [ho] at h
      exact ih s1 s (fun x hx => hk x (List.mem_cons_of_mem _ hx)) h

/-- Claim C11, as stated, fails: after typing "ab", the interrupt key makes
`ReadLine` return the cancellation error together with the typed line "ab";
the returned character sequence does carry the buffer. -/
theorem interrupt_returns_typed_line :
    ∃ s1, ReadLine asciiKeys ⟨80, 24⟩ 0 0 (constOracle ⟨3, 1⟩)
        [ReadResult.rune 97, ReadResult.rune 98, ReadResult.rune asciiKeys.KeyInterrupt]
        = some (⟨[97, 98], some GoError.InterruptErr⟩, s1) ∧
      s1.out = [Call.PrintfC 97, Call.PrintfC 98, Call.Print "\r\n"] :=
  ⟨_, rfl, rfl⟩

/-- Claim C11, amended. In every session state, the interrupt key ends the
session with the cancellation error `InterruptErr`, the only renderer call
being the newline `Print("\r\n")` issued before returning, and the character
sequence returned alongside the error is the current buffer. Input after the
interrupt key is not read. -/
theorem interrupt_ends_session (K : Keys) (size : Coord) (mask : Rune) (fuel : Nat)
    (oracle : Nat → Coord) (s : State) (more : List ReadResult) (hK : K.Distinct) :
    ReadLineLoop K size mask fuel oracle (ReadResult.rune K.KeyInterrupt :: more) s =
      some (⟨s.line, some GoError.InterruptErr⟩,
        { s with queries := s.queries + 1, out := s.out ++ [Call.Print "\r\n"] }) := by
  obtain ⟨⟨d1, d2, d3⟩, -⟩ := hK.facts
  simp only [ReadLineLoop, handleKey_interrupt K size mask fuel oracle s K.KeyInterrupt
    (by simp [d1, d2, d3]) rfl]

theorem interrupt_ends_session_witness :
    ReadLineLoop asciiKeys ⟨80, 24⟩ 0 0 (constOracle ⟨3, 1⟩)
      (ReadResult.rune asciiKeys.KeyInterrupt :: [])
      ⟨[97, 98], 2, [Call.PrintfC 97, Call.PrintfC 98], 2, 0⟩ =
      some (⟨[97, 98], some GoError.InterruptErr⟩,
        ⟨[97, 98], 2, [Call.PrintfC 97, Call.PrintfC 98, Call.Print "\r\n"], 3, 0⟩) :=
  interrupt_ends_session asciiKeys ⟨80, 24⟩ 0 0 (constOracle ⟨3, 1⟩)
    ⟨[97, 98], 2, [Call.PrintfC 97, Call.PrintfC 98], 2, 0⟩ [] (by decide)

/-- Claim C12. If, after any sequence of keys that did not end the session, the
next read fails with error `e`, `ReadLine` returns that same `e` with the
buffer, and the state it returns in is the state those keys led to: no
renderer call and no cursor query is made after the failed read. Input after
the failed read is not read. -/
theorem read_failure_propagates (K : Keys) (size : Coord) (mask : Rune) (fuel : Nat)
    (oracle : Nat → Coord) (keys : List Rune) (e : GoError) (more : List ReadResult)
    (s : State)
    (hkeys : ∀ r ∈ keys, ¬(r = 13 ∨ r = 10 ∨ r = K.KeyEndTransmission) ∧ r ≠ K.KeyInterrupt)
    (hrun : runKeys K size mask fuel oracle keys State.init = some s) :
    ReadLine K size mask fuel oracle (keys.map ReadResult.rune ++ ReadResult.fail e :: more)
      = some (⟨s.line, some e⟩, s) := by
  unfold ReadLine
  rw [ReadLineLoop_of_runKeys K size mask fuel oracle _ keys State.init s hkeys hrun]
  rfl

theorem read_failure_propagates_witness :
    ReadLine asciiKeys ⟨80, 24⟩ 0 0 (constOracle ⟨3, 1⟩)
      ([97, 98, 2].map ReadResult.rune ++ ReadResult.fail (GoError.readError 5) :: [])
      = some (⟨[97, 98], some (GoError.readError 5)⟩,
          ⟨[97, 98], 1, [Call.PrintfC 97, Call.PrintfC 98, Call.CursorBack 1], 3, 0⟩) :=
  read_failure_propagates asciiKeys ⟨80, 24⟩ 0 0 (constOracle ⟨3, 1⟩) [97, 98, 2]
    (GoError.readError 5) []
    ⟨[97, 98], 1, [Call.PrintfC 97, Call.PrintfC 98, Call.CursorBack 1], 3, 0⟩
    (by decide) rfl

theorem backspaceKey_eraseOut (size cur : Coord) (s : State) :
    (backspaceKey size cur s).map State.eraseOut =
      (backspaceKey size cur s.eraseOut).map State.eraseOut := by
  unfold backspaceKey State.eraseOut
  dsimp only
  split_ifs
  · cases sliceTo s.line (s.line.length - 1) <;> rfl
  all_goals
    first
    | rfl
    | (cases sliceTo s.line (s.index - 1) with
       | none => rfl
       | some front =>
         cases sliceFrom s.line s.index with
         | none => rfl
         | some back =>
           simp only [Option.some_bind]
           cases sliceFrom (front ++ back) (s.index - 1) <;> rfl)

theorem specialDeleteKey_eraseOut (s : State) :
    (specialDeleteKey s).map State.eraseOut =
      (specialDeleteKey s.eraseOut).map State.eraseOut := by
  unfold specialDeleteKey State.eraseOut
  dsimp only
  split_ifs
  all_goals
    first
    | rfl
    | (cases sliceTo s.line s.index with
       | none => rfl
       | some front =>
         cases sliceFrom s.line (s.index + 1) with
         | none => rfl
         | some back =>
           simp only [Option.some_bind]
           cases sliceFrom (front ++ back) s.index <;> rfl)

theorem regularKey_eraseOut (size cur : Coord) (m1 m2 : Rune) (oracle : Nat → Coord)
    (s : State) (r : Rune) :
    (regularKey size cur m1 oracle s r).map State.eraseOut =
      (regularKey size cur m2 oracle s.eraseOut r).map State.eraseOut := by
  unfold regularKey State.eraseOut
  dsimp only
  split_ifs
  all_goals
    first
    | rfl
    | (cases sliceTo s.line s.index with
       | none => rfl
       | some front =>
         cases sliceFrom s.line s.index with
         | none => rfl
         | some back =>
           simp only [Option.some_bind]
           cases sliceFrom (front ++ ([r] ++ back)) s.index <;> rfl)

theorem arrowLeftKey_eraseOut (size cur : Coord) (s : State) :
    (arrowLeftKey size cur s).eraseOut = (arrowLeftKey size cur s.eraseOut).eraseOut := by
  unfold arrowLeftKey State.eraseOut
  dsimp only
  split_ifs <;> rfl

theorem arrowRightKey_eraseOut (size cur : Coord) (s : State) :
    (arrowRightKey size cur s).eraseOut = (arrowRightKey size cur s.eraseOut).eraseOut := by
  unfold arrowRightKey State.eraseOut
  dsimp only
  split_ifs <;> rfl

theorem homeBody_eraseOut (size : Coord) (p : Coord × State) :
    eraseOutLoop (homeBody size p) = eraseOutLoop (homeBody size (eraseOutLoop p)) := by
  unfold homeBody eraseOutLoop State.eraseOut
  dsimp only
  split_ifs <;> rfl

theorem endBody_eraseOut (size : Coord) (p : Coord × State) :
    eraseOutLoop (endBody size p) = eraseOutLoop (endBody size (eraseOutLoop p)) := by
  unfold endBody eraseOutLoop State.eraseOut
  dsimp only
  split_ifs <;> rfl

theorem homeLoop_eraseOut (size : Coord) :
    ∀ (fuel : Nat) (p : Coord × State),
      (homeLoop size fuel p).map eraseOutLoop =
        (homeLoop size fuel (eraseOutLoop p)).map eraseOutLoop := by
  intro fuel
  induction fuel with
  | zero =>
    intro p
    simp only [homeLoop]
    have : (eraseOutLoop p).2.index = p.2.index := rfl
    rw [this]
    split_ifs <;> rfl
  | succ n ih =>
    intro p
    simp only [homeLoop]
    have : (eraseOutLoop p).2.index = p.2.index := rfl
    rw [this]
    split_ifs
    · rw [ih (homeBody size p), ih (homeBody size (eraseOutLoop p)), homeBody_eraseOut]
    · rfl

theorem endLoop_eraseOut (size : Coord) :
    ∀ (fuel : Nat) (p : Coord × State),
      (endLoop size fuel p).map eraseOutLoop =
        (endLoop size fuel (eraseOutLoop p)).map eraseOutLoop := by
  intro fuel
  induction fuel with
  | zero =>
    intro p
    simp only [endLoop]
    have h1 : (eraseOutLoop p).2.index = p.2.index := rfl
    have h2 : (eraseOutLoop p).2.line = p.2.line := rfl
    rw [h1, h2]
    split_ifs <;> rfl
  | succ n ih =>
    intro p
    simp only [endLoop]
    have h1 : (eraseOutLoop p).2.index = p.2.index := rfl
    have h2 : (eraseOutLoop p).2.line = p.2.line := rfl
    rw [h1, h2]
    split_ifs
    · rw [ih (endBody size p), ih (endBody size (eraseOutLoop p)), endBody_eraseOut]
    · rfl

theorem map_next_eraseOut (x : Option State) :
    (x.map Outcome.next).map Outcome.eraseOut = (x.map State.eraseOut).map Outcome.next := by
  cases x <;> rfl

theorem map_loop_eraseOut (x : Option (Coord × State)) :
    (x.map fun p => Outcome.next p.2).map Outcome.eraseOut =
      (x.map eraseOutLoop).map fun p => Outcome.next p.2 := by
  cases x <;> rfl

/-- One key: apart from the record of renderer calls, the outcome depends
neither on the mask nor on the calls recorded so far. -/
theorem handleKey_eraseOut (K : Keys) (size : Coord) (m1 m2 : Rune) (fuel : Nat)
    (oracle : Nat → Coord) (s : State) (r : Rune) :
    (handleKey K size m1 fuel oracle s r).map Outcome.eraseOut =
      (handleKey K size m2 fuel oracle s.eraseOut r).map Outcome.eraseOut := by
  have hq : s.eraseOut.queries = s.queries := rfl
  have he : ({ s.eraseOut with queries := s.eraseOut.queries + 1 } : State) =
      State.eraseOut { s with queries := s.queries + 1 } := rfl
  by_cases c1 : r = 13 ∨ r = 10 ∨ r = K.KeyEndTransmission
  · rw [handleKey_enter K size m1 fuel oracle s r c1,
      handleKey_enter K size m2 fuel oracle s.eraseOut r c1]
    rfl
  by_cases c2 : r = K.KeyInterrupt
  · rw [handleKey_interrupt K size m1 fuel oracle s r c1 c2,
      handleKey_interrupt K size m2 fuel oracle s.eraseOut r c1 c2]
    rfl
  by_cases c3 : r = K.KeyBackspace ∨ r = K.KeyDelete
  · rw [handleKey_backspace K size m1 fuel oracle s r c1 c2 c3,
      handleKey_backspace K size m2 fuel oracle s.eraseOut r c1 c2 c3,
      map_next_eraseOut, map_next_eraseOut, he, hq, backspaceKey_eraseOut]
  by_cases c4 : r = K.KeyArrowLeft
  · rw [handleKey_arrowLeft K size m1 fuel oracle s r c1 c2 c3 c4,
      handleKey_arrowLeft K size m2 fuel oracle s.eraseOut r c1 c2 c3 c4, he, hq]
    simp only [Option.map_some', Outcome.eraseOut]
    rw [arrowLeftKey_eraseOut]
  by_cases c5 : r = K.KeyArrowRight
  · rw [handleKey_arrowRight K size m1 fuel oracle s r c1 c2 c3 c4 c5,
      handleKey_arrowRight K size m2 fuel oracle s.eraseOut r c1 c2 c3 c4 c5, he, hq]
    simp only [Option.map_some', Outcome.eraseOut]
    rw [arrowRightKey_eraseOut]
  by_cases c6 : r = K.SpecialKeyHome
  · rw [handleKey_home K size m1 fuel oracle s r c1 c2 c3 c4 c5 c6,
      handleKey_home K size m2 fuel oracle s.eraseOut r c1 c2 c3 c4 c5 c6,
      map_loop_eraseOut, map_loop_eraseOut, he, hq, homeLoop_eraseOut]
    rfl
  by_cases c7 : r = K.SpecialKeyEnd
  · rw [handleKey_end K size m1 fuel oracle s r c1 c2 c3 c4 c5 c6 c7,
      handleKey_end K size m2 fuel oracle s.eraseOut r c1 c2 c3 c4 c5 c6 c7,
      map_loop_eraseOut, map_loop_eraseOut, he, hq, endLoop_eraseOut]
    rfl
  by_cases c8 : r = K.SpecialKeyDelete
  · rw [handleKey_specialDelete K size m1 fuel oracle s r c1 c2 c3 c4 c5 c6 c7 c8,
      handleKey_specialDelete K size m2 fuel oracle s.eraseOut r c1 c2 c3 c4 c5 c6 c7 c8,
      map_next_eraseOut, map_next_eraseOut, he, specialDeleteKey_eraseOut]
  by_cases c9 : IsControl r = true ∨ r = K.IgnoreKey
  · rw [handleKey_ignore K size m1 fuel oracle s r c1 c2 c3 c4 c5 c6 c7 c8 c9,
      handleKey_ignore K size m2 fuel oracle s.eraseOut r c1 c2 c3 c4 c5 c6 c7 c8 c9]
    rfl
  · have hreg : K.Regular r := by
      simp only [not_or] at c1 c3 c9
      exact ⟨c1.1, c1.2.1, c1.2.2, c2, c3.1, c3.2, c4, c5, c6, c7, c8, by simpa using c9.1, c9.2⟩
    rw [handleKey_regular K size m1 fuel oracle s r hreg,
      handleKey_regular K size m2 fuel oracle s.eraseOut r hreg,
      map_next_eraseOut, map_next_eraseOut, he, hq,
      regularKey_eraseOut size (oracle s.queries) m1 m2 oracle]

/-- A run of keys: apart from the record of renderer calls, the state reached
depends neither on the mask nor on the calls recorded so far. -/
theorem runKeys_eraseOut (K : Keys) (size : Coord) (fuel : Nat) (oracle : Nat → Coord) :
    ∀ (keys : List Rune) (m1 m2 : Rune) (s : State),
      (runKeys K size m1 fuel oracle keys s).map State.eraseOut =
        (runKeys K size m2 fuel oracle keys s.eraseOut).map State.eraseOut := by
  intro keys
  induction keys with
  | nil => intro m1 m2 s; rfl
  | cons r rest ih =>
    intro m1 m2 s
    have hk := handleKey_eraseOut K size m1 m2 fuel oracle s r
    simp only [runKeys]
    cases h1 : handleKey K size m1 fuel oracle s r with
    | none =>
      rw [h1] at hk
      cases h2 : handleKey K size m2 fuel oracle s.eraseOut r with
      | none => rfl
      | some o2 => rw [h2] at hk; cases hk
    | some o1 =>
      rw [h1] at hk
      cases h2 : handleKey K size m2 fuel oracle s.eraseOut r with
      | none => rw [h2] at hk; cases hk
      | some o2 =>
        rw [h2] at hk
        simp only [Option.map_some', Option.some.injEq] at hk
        cases o1 with
        | next a =>
          cases o2 with
          | next b =>
            simp only [Outcome.eraseOut, Outcome.next.injEq] at hk
            dsimp only
            rw [ih m1 m2 a, ih m2 m2 b, hk]
          | ret _ _ => simp [Outcome.eraseOut] at hk
        | ret ra a =>
          cases o2 with
          | next _ => simp [Outcome.eraseOut] at hk
          | ret rb b =>
            simp only [Outcome.eraseOut, Outcome.ret.injEq] at hk
            simp only [Option.map_some', hk.2]

/-- The loop of `ReadLine`: apart from the record of renderer calls, the result
depends neither on the mask nor on the calls recorded so far. -/
theorem ReadLineLoop_eraseOut (K : Keys) (size : Coord) (fuel : Nat) (oracle : Nat → Coord) :
    ∀ (input : List ReadResult) (m1 m2 : Rune) (s : State),
      (ReadLineLoop K size m1 fuel oracle input s).map (fun p => (p.1, p.2.eraseOut)) =
        (ReadLineLoop K size m2 fuel oracle input s.eraseOut).map
          (fun p => (p.1, p.2.eraseOut)) := by
  intro input
  induction input with
  | nil => intro m1 m2 s; rfl
  | cons x rest ih =>
    intro m1 m2 s
    cases x with
    | fail err => rfl
    | rune r =>
      have hk := handleKey_eraseOut K size m1 m2 fuel oracle s r
      simp only [ReadLineLoop]
      cases h1 : handleKey K size m1 fuel oracle s r with
      | none =>
        rw [h1] at hk
        cases h2 : handleKey K size m2 fuel oracle s.eraseOut r with
        | none => rfl
        | some o2 => rw [h2] at hk; cases hk
      | some o1 =>
        rw [h1] at hk
        cases h2 : handleKey K size m2 fuel oracle s.eraseOut r with
        | none => rw [h2] at hk; cases hk
        | some o2 =>
          rw [h2] at hk
          simp only [Option.map_some', Option.some.injEq] at hk
          cases o1 with
          | next a =>
            cases o2 with
            | next b =>
              simp only [Outcome.eraseOut, Outcome.next.injEq] at hk
              dsimp only
              rw [ih m1 m2 a, ih m2 m2 b, hk]
            | ret _ _ => simp [Outcome.eraseOut] at hk
          | ret ra a =>
            cases o2 with
            | next _ => simp [Outcome.eraseOut] at hk
            | ret rb b =>
              simp only [Outcome.eraseOut, Outcome.ret.injEq] at hk
              simp only [Option.map_some', hk.1, hk.2]

/-- Claim C13. Masking does not affect the buffer: for every key sequence and
every cursor oracle, the buffer and index reached after the keys are the same
for any two masks (zero or not), and so are the line and the error that
`ReadLine` returns on any input; with one mask a state or result exists exactly
when it exists with the other. -/
theorem mask_does_not_affect_buffer (K : Keys) (size : Coord) (m1 m2 : Rune) (fuel : Nat)
    (oracle : Nat → Coord) :
    (∀ keys : List Rune,
      (runKeys K size m1 fuel oracle keys State.init).map (fun s => (s.line, s.index)) =
        (runKeys K size m2 fuel oracle keys State.init).map (fun s => (s.line, s.index))) ∧
    (∀ input : List ReadResult,
      (ReadLine K size m1 fuel oracle input).map Prod.fst =
        (ReadLine K size m2 fuel oracle input).map Prod.fst) := by
  constructor
  · intro keys
    have h := congrArg (Option.map fun s : State => (s.line, s.index))
      (runKeys_eraseOut K size fuel oracle keys m1 m2 State.init)
    simpa only [Option.map_map, Function.comp_def, State.eraseOut, State.init] using h
  · intro input
    have h := congrArg (Option.map Prod.fst)
      (ReadLineLoop_eraseOut K size fuel oracle input m1 m2 State.init)
    simpa only [Option.map_map, Function.comp_def, State.eraseOut, State.init, ReadLine]
      using h

/-- Claim C14. An ArrowLeft key with `index > 0`: when the oracle reports column
1, the renderer calls are move-up-one-row then forward `W` columns, which on a
terminal that stops forward movement at column `W` leave the cursor on the
previous row at column `W`; when the reported column is not 1, the only
renderer call is back-one-column. In both cases the index decreases by 1 and
the buffer is unchanged. -/
theorem arrowLeft_moves_cursor (K : Keys) (size : Coord) (mask : Rune) (fuel : Nat)
    (oracle : Nat → Coord) (s : State) (hK : K.Distinct) (hpos : 0 < s.index) :
    ((oracle s.queries).X = 1 →
      handleKey K size mask fuel oracle s K.KeyArrowLeft = some (Outcome.next
        { s with
          queries := s.queries + 1
          index := s.index - 1
          out := s.out ++ [Call.CursorUp 1, Call.CursorForward size.X] }) ∧
      (1 ≤ size.X → ∀ scr : Screen, scr.cur = oracle s.queries →
        (Screen.run size.X scr [Call.CursorUp 1, Call.CursorForward size.X]).cur
          = ⟨size.X, scr.cur.Y - 1⟩)) ∧
    ((oracle s.queries).X ≠ 1 →
      handleKey K size mask fuel oracle s K.KeyArrowLeft = some (Outcome.next
        { s with
          queries := s.queries + 1
          index := s.index - 1
          out := s.out ++ [Call.CursorBack 1] })) := by
  rw [handleKey_left K size mask fuel oracle s hK]
  refine ⟨fun hx => ⟨?_, ?_⟩, fun hx => ?_⟩
  · simp [arrowLeftKey, hpos, Coord.CursorIsAtLineBegin, hx]
  · intro hW scr hscr
    have hx1 : scr.cur.X = 1 := by rw [hscr]; exact hx
    simp only [Screen.run, List.foldl_cons, List.foldl_nil, Screen.apply, hx1]
    congr 1
    omega
  · simp [arrowLeftKey, hpos, Coord.CursorIsAtLineBegin, hx]

theorem arrowLeft_moves_cursor_witness :
    handleKey asciiKeys ⟨5, 24⟩ 0 0 (constOracle ⟨1, 2⟩)
        ⟨[97, 98, 99, 100, 101, 102], 6, [], 6, 0⟩ asciiKeys.KeyArrowLeft
      = some (Outcome.next ⟨[97, 98, 99, 100, 101, 102], 5,
          [Call.CursorUp 1, Call.CursorForward 5], 7, 0⟩) ∧
    (Screen.run 5 ⟨⟨1, 2⟩, ⟨1, 1⟩⟩ [Call.CursorUp 1, Call.CursorForward 5]).cur = ⟨5, 1⟩ :=
  ⟨((arrowLeft_moves_cursor asciiKeys ⟨5, 24⟩ 0 0 (constOracle ⟨1, 2⟩)
      ⟨[97, 98, 99, 100, 101, 102], 6, [], 6, 0⟩ (by decide) (by decide)).1 rfl).1,
   ((arrowLeft_moves_cursor asciiKeys ⟨5, 24⟩ 0 0 (constOracle ⟨1, 2⟩)
      ⟨[97, 98, 99, 100, 101, 102], 6, [], 6, 0⟩ (by decide) (by decide)).1 rfl).2
      (by decide) ⟨⟨1, 2⟩, ⟨1, 1⟩⟩ rfl⟩

theorem homeBody_cursor (size : Coord) (p : Coord × State)
    (h1 : 1 ≤ p.1.X) (h2 : p.1.X ≤ size.X) :
    1 ≤ (homeBody size p).1.X ∧ (homeBody size p).1.X ≤ size.X ∧
      cellPos size.X (homeBody size p).1 = cellPos size.X p.1 - 1 := by
  unfold homeBody
  by_cases hb : p.1.X = 1
  · simp only [Coord.CursorIsAtLineBegin, hb, beq_self_eq_true, if_true, cellPos]
    refine ⟨by omega, le_refl _, ?_⟩
    ring
  · have hb1 : (p.1.X == 1) = false := by simpa using hb
    simp only [Coord.CursorIsAtLineBegin, hb1, Bool.false_eq_true, if_false, cellPos]
    refine ⟨by omega, by omega, ?_⟩
    ring

theorem endBody_cursor (size : Coord) (p : Coord × State)
    (h1 : 1 ≤ p.1.X) (h2 : p.1.X ≤ size.X) :
    1 ≤ (endBody size p).1.X ∧ (endBody size p).1.X ≤ size.X ∧
      cellPos size.X (endBody size p).1 = cellPos size.X p.1 + 1 := by
  unfold endBody
  by_cases hb : p.1.X = size.X
  · simp only [Coord.CursorIsAtLineEnd, hb, beq_self_eq_true, if_true, cellPos]
    refine ⟨le_refl _, by omega, ?_⟩
    ring
  · have hb1 : (p.1.X == size.X) = false := by simpa using hb
    simp only [Coord.CursorIsAtLineEnd, hb1, Bool.false_eq_true, if_false, cellPos]
    refine ⟨by omega, by omega, ?_⟩
    ring

theorem homeLoop_cursor (size : Coord) :
    ∀ (fuel : Nat) (p q : Coord × State), homeLoop size fuel p = some q →
      0 ≤ p.2.index → 1 ≤ p.1.X → p.1.X ≤ size.X →
      1 ≤ q.1.X ∧ q.1.X ≤ size.X ∧ cellPos size.X q.1 = cellPos size.X p.1 - p.2.index := by
  intro fuel
  induction fuel with
  | zero =>
    intro p q h h0 h1 h2
    simp only [homeLoop] at h
    split at h
    · simp at h
    · have hq : q = p := by simpa using h.symm
      subst hq
      exact ⟨h1, h2, by omega⟩
  | succ n ih =>
    intro p q h h0 h1 h2
    simp only [homeLoop] at h
    split at h
    · obtain ⟨b1, b2, b3⟩ := homeBody_cursor size p h1 h2
      obtain ⟨c1, c2, c3⟩ := ih (homeBody size p) q h (by rw [homeBody_index]; omega) b1 b2
      rw [homeBody_index] at c3
      exact ⟨c1, c2, by omega⟩
    · have hq : q = p := by simpa using h.symm
      subst hq
      exact ⟨h1, h2, by omega⟩

theorem endLoop_cursor (size : Coord) :
    ∀ (fuel : Nat) (p q : Coord × State), endLoop size fuel p = some q →
      1 ≤ p.1.X → p.1.X ≤ size.X →
      1 ≤ q.1.X ∧ q.1.X ≤ size.X ∧
        cellPos size.X q.1 = cellPos size.X p.1 + (p.2.line.length - p.2.index) := by
  intro fuel
  induction fuel with
  | zero =>
    intro p q h h1 h2
    simp only [endLoop] at h
    split at h
    · simp at h
    · rename_i hne
      have hq : q = p := by simpa using h.symm
      subst hq
      have : q.2.index = q.2.line.length := by simpa using hne
      exact ⟨h1, h2, by omega⟩
  | succ n ih =>
    intro p q h h1 h2
    simp only [endLoop] at h
    split at h
    · obtain ⟨b1, b2, b3⟩ := endBody_cursor size p h1 h2
      obtain ⟨c1, c2, c3⟩ := ih (endBody size p) q h b1 b2
      rw [endBody_index, endBody_line] at c3
      exact ⟨c1, c2, by omega⟩
    · rename_i hne
      have hq : q = p := by simpa using h.symm
      subst hq
      have : q.2.index = q.2.line.length := by simpa using hne
      exact ⟨h1, h2, by omega⟩

/-- Claim C19. From a reported cursor `(X, Y)` with `1 ≤ X ≤ W`: every iteration
of the Home loop keeps the simulated column within `1..W` and decreases the
row-major cell position `(Y-1)*W + (X-1)` of the simulated cursor by exactly 1,
and the loop ends with the simulated cursor exactly `index` cells before where
it started; every iteration of the End loop keeps the column within `1..W` and
increases that position by exactly 1, and the loop ends exactly
`len(line) - index` cells after where it started. -/
theorem home_end_simulated_cursor (size cur : Coord) (s : State) (fuel : Nat)
    (hx1 : 1 ≤ cur.X) (hx2 : cur.X ≤ size.X)
    (h0 : 0 ≤ s.index) (h1 : s.index ≤ s.line.length) (hfuel : s.line.length ≤ fuel) :
    (∀ p : Coord × State, 1 ≤ p.1.X → p.1.X ≤ size.X →
      1 ≤ (homeBody size p).1.X ∧ (homeBody size p).1.X ≤ size.X ∧
        cellPos size.X (homeBody size p).1 = cellPos size.X p.1 - 1) ∧
    (∃ q, homeLoop size fuel (cur, s) = some q ∧ 1 ≤ q.1.X ∧ q.1.X ≤ size.X ∧
      cellPos size.X q.1 = cellPos size.X cur - s.index) ∧
    (∀ p : Coord × State, 1 ≤ p.1.X → p.1.X ≤ size.X →
      1 ≤ (endBody size p).1.X ∧ (endBody size p).1.X ≤ size.X ∧
        cellPos size.X (endBody size p).1 = cellPos size.X p.1 + 1) ∧
    (∃ q, endLoop size fuel (cur, s) = some q ∧ 1 ≤ q.1.X ∧ q.1.X ≤ size.X ∧
      cellPos size.X q.1 = cellPos size.X cur + (s.line.length - s.index)) := by
  refine ⟨fun p => homeBody_cursor size p, ?_, fun p => endBody_cursor size p, ?_⟩
  · obtain ⟨q, hq⟩ := homeLoop_total size fuel (cur, s) (by dsimp only; omega)
    exact ⟨q, hq, homeLoop_cursor size fuel (cur, s) q hq h0 hx1 hx2⟩
  · obtain ⟨q, hq⟩ := endLoop_total size fuel (cur, s) h1 (by dsimp only; omega)
    exact ⟨q, hq, endLoop_cursor size fuel (cur, s) q hq hx1 hx2⟩

theorem home_end_simulated_cursor_witness :
    (∃ q, homeLoop ⟨5, 24⟩ 7 (⟨2, 2⟩, ⟨[97, 98, 99, 100, 101, 102, 103], 4, [], 1, 0⟩)
        = some q ∧ 1 ≤ q.1.X ∧ q.1.X ≤ 5 ∧
      cellPos 5 q.1 = cellPos 5 ⟨2, 2⟩ - 4) ∧
    (∃ q, endLoop ⟨5, 24⟩ 7 (⟨2, 2⟩, ⟨[97, 98, 99, 100, 101, 102, 103], 4, [], 1, 0⟩)
        = some q ∧ 1 ≤ q.1.X ∧ q.1.X ≤ 5 ∧
      cellPos 5 q.1 = cellPos 5 ⟨2, 2⟩ + (7 - 4)) :=
  ⟨(home_end_simulated_cursor ⟨5, 24⟩ ⟨2, 2⟩ ⟨[97, 98, 99, 100, 101, 102, 103], 4, [], 1, 0⟩ 7
      (by decide) (by decide) (by decide) (by decide) (by decide)).2.1,
   (home_end_simulated_cursor ⟨5, 24⟩ ⟨2, 2⟩ ⟨[97, 98, 99, 100, 101, 102, 103], 4, [], 1, 0⟩ 7
      (by decide) (by decide) (by decide) (by decide) (by decide)).2.2.2⟩

/-- One key from a state within bounds: every character of the new buffer was in
the old buffer, or is the key itself, which then is neither a control character
nor the ignore key. -/
theorem handleKey_line_mem (K : Keys) (size : Coord) (mask : Rune) (fuel : Nat)
    (oracle : Nat → Coord) (s : State) (r : Rune) (hs : s.Inv)
    (o : Outcome) (ho : handleKey K size mask fuel oracle s r = some o) :
    ∀ c ∈ o.state.line, c ∈ s.line ∨ (c = r ∧ IsControl r = false ∧ r ≠ K.IgnoreKey) := by
  obtain ⟨h0, h1⟩ := hs
  by_cases c1 : r = 13 ∨ r = 10 ∨ r = K.KeyEndTransmission
  · rw [handleKey_enter K size mask fuel oracle s r c1] at ho
    cases ho
    exact fun c hc => Or.inl hc
  by_cases c2 : r = K.KeyInterrupt
  · rw [handleKey_interrupt K size mask fuel oracle s r c1 c2] at ho
    cases ho
    exact fun c hc => Or.inl hc
  by_cases c3 : r = K.KeyBackspace ∨ r = K.KeyDelete
  · rw [handleKey_backspace K size mask fuel oracle s r c1 c2 c3] at ho
    by_cases hpos : 0 < s.index
    · obtain ⟨s1, he, hl, -⟩ := backspaceKey_delete size (oracle s.queries)
        { s with queries := s.queries + 1 } hpos h1
      rw [he] at ho
      cases ho
      intro c hc
      simp only [Outcome.state, hl, List.mem_append] at hc
      rcases hc with hc | hc
      · exact Or.inl (List.mem_of_mem_take hc)
      · exact Or.inl (List.mem_of_mem_drop hc)
    · rw [backspaceKey_bell size (oracle s.queries) { s with queries := s.queries + 1 }
        (Or.inl (by dsimp only; omega))] at ho
      cases ho
      exact fun c hc => Or.inl hc
  by_cases c4 : r = K.KeyArrowLeft
  · rw [handleKey_arrowLeft K size mask fuel oracle s r c1 c2 c3 c4] at ho
    cases ho
    intro c hc
    simp only [Outcome.state,
      (arrowLeftKey_inv size (oracle s.queries) { s with queries := s.queries + 1 }
        ⟨h0, h1⟩).2] at hc
    exact Or.inl hc
  by_cases c5 : r = K.KeyArrowRight
  · rw [handleKey_arrowRight K size mask fuel oracle s r c1 c2 c3 c4 c5] at ho
    cases ho
    intro c hc
    simp only [Outcome.state,
      (arrowRightKey_inv size (oracle s.queries) { s with queries := s.queries + 1 }
        ⟨h0, h1⟩).2] at hc
    exact Or.inl hc
  by_cases c6 : r = K.SpecialKeyHome
  · rw [handleKey_home K size mask fuel oracle s r c1 c2 c3 c4 c5 c6,
      Option.map_eq_some'] at ho
    obtain ⟨q, hq, rfl⟩ := ho
    obtain ⟨-, hl, -⟩ := homeLoop_result size fuel _ q hq h0
    intro c hc
    simp only [Outcome.state, hl] at hc
    exact Or.inl hc
  by_cases c7 : r = K.SpecialKeyEnd
  · rw [handleKey_end K size mask fuel oracle s r c1 c2 c3 c4 c5 c6 c7,
      Option.map_eq_some'] at ho
    obtain ⟨q, hq, rfl⟩ := ho
    obtain ⟨-, hl, -⟩ := endLoop_result size fuel _ q hq
    intro c hc
    simp only [Outcome.state, hl] at hc
    exact Or.inl hc
  by_cases c8 : r = K.SpecialKeyDelete
  · rw [handleKey_specialDelete K size mask fuel oracle s r c1 c2 c3 c4 c5 c6 c7 c8] at ho
    by_cases hlt : s.index < s.line.length
    · obtain ⟨s1, he, hl, -⟩ := specialDeleteKey_delete
        { s with queries := s.queries + 1 } h0 hlt
      rw [he] at ho
      cases ho
      intro c hc
      simp only [Outcome.state, hl, List.mem_append] at hc
      rcases hc with hc | hc
      · exact Or.inl (List.mem_of_mem_take hc)
      · exact Or.inl (List.mem_of_mem_drop hc)
    · rw [specialDeleteKey_end { s with queries := s.queries + 1 }
        (by dsimp only; omega)] at ho
      cases ho
      exact fun c hc => Or.inl hc
  by_cases c9 : IsControl r = true ∨ r = K.IgnoreKey
  · rw [handleKey_ignore K size mask fuel oracle s r c1 c2 c3 c4 c5 c6 c7 c8 c9] at ho
    cases ho
    exact fun c hc => Or.inl hc
  · simp only [not_or] at c1 c3 c9
    have hctl : IsControl r = false := by simpa using c9.1
    have hreg : K.Regular r :=
      ⟨c1.1, c1.2.1, c1.2.2, c2, c3.1, c3.2, c4, c5, c6, c7, c8, hctl, c9.2⟩
    rw [handleKey_regular K size mask fuel oracle s r hreg] at ho
    obtain ⟨s1, he, hl, -⟩ := regularKey_insert size (oracle s.queries) mask oracle
      { s with queries := s.queries + 1 } r h0 h1
    rw [he] at ho
    cases ho
    intro c hc
    simp only [Outcome.state, hl, List.mem_append, List.mem_singleton] at hc
    rcases hc with (hc | hc) | hc
    · exact Or.inl (List.mem_of_mem_take hc)
    · exact Or.inr ⟨hc, hctl, c9.2⟩
    · exact Or.inl (List.mem_of_mem_drop hc)

theorem handleKey_clean (K : Keys) (size : Coord) (mask : Rune) (fuel : Nat)
    (oracle : Nat → Coord) (s : State) (r : Rune) (hs : s.Inv) (hc : s.Clean K)
    (o : Outcome) (ho : handleKey K size mask fuel oracle s r = some o) :
    o.state.Clean K := by
  intro c hmem
  rcases handleKey_line_mem K size mask fuel oracle s r hs o ho c hmem with h | ⟨rfl, h1, h2⟩
  · exact hc c h
  · exact ⟨h1, h2⟩

theorem runKeys_clean (K : Keys) (size : Coord) (mask : Rune) (fuel : Nat)
    (oracle : Nat → Coord) :
    ∀ (keys : List Rune) (s : State), s.Inv → s.Clean K →
      ∀ s1, runKeys K size mask fuel oracle keys s = some s1 → s1.Clean K := by
  intro keys
  induction keys with
  | nil => intro s _ hc s1 h; cases h; exact hc
  | cons r rest ih =>
    intro s hs hc s1 h
    simp only [runKeys] at h
    cases ho : handleKey K size mask fuel oracle s r with
    | none => rw [ho] at h; cases h
    | some o =>
      rw [ho] at h
      have hinv := ((handleKey_inv K size mask fuel oracle s r hs).1 o ho).1
      have hcl := handleKey_clean K size mask fuel oracle s r hs hc o ho
      cases o with
      | next s2 => exact ih s2 hinv hcl s1 h
      | ret res s2 => cases h; exact hcl

theorem ReadLineLoop_clean (K : Keys) (size : Coord) (mask : Rune) (fuel : Nat)
    (oracle : Nat → Coord) :
    ∀ (input : List ReadResult) (s : State), s.Inv → s.Clean K →
      ∀ res s1, ReadLineLoop K size mask fuel oracle input s = some (res, s1) →
        s1.Clean K := by
  intro input
  induction input with
  | nil => intro s _ _ res s1 h; simp [ReadLineLoop] at h
  | cons x rest ih =>
    intro s hs hc res s1 h
    cases x with
    | fail err =>
      simp only [ReadLineLoop, Option.some.injEq, Prod.mk.injEq] at h
      obtain ⟨-, rfl⟩ := h
      exact hc
    | rune r =>
      simp only [ReadLineLoop] at h
      cases ho : handleKey K size mask fuel oracle s r with
      | none => rw [ho] at h; cases h
      | some o =>
        rw [ho] at h
        have hinv := ((handleKey_inv K size mask fuel oracle s r hs).1 o ho).1
        have hcl := handleKey_clean K size mask fuel oracle s r hs hc o ho
        cases o with
        | next s2 => exact ih s2 hinv hcl res s1 h
        | ret res2 s2 =>
          simp only [Option.some.injEq, Prod.mk.injEq] at h
          obtain ⟨-, rfl⟩ := h
          exact hcl

/-- Claim C18. No control character is ever stored: for every key sequence and
every cursor oracle, every character of the buffer after the keys, and every
character of the line `ReadLine` returns, is a key `r` with
`unicode.IsControl(r)` false and `r != IgnoreKey`. -/
theorem buffer_has_no_control_character (K : Keys) (size : Coord) (mask : Rune)
    (fuel : Nat) (oracle : Nat → Coord) :
    (∀ (keys : List Rune) (s1 : State),
      runKeys K size mask fuel oracle keys State.init = some s1 →
        ∀ c ∈ s1.line, IsControl c = false ∧ c ≠ K.IgnoreKey) ∧
    (∀ (input : List ReadResult) (res : Result) (s1 : State),
      ReadLine K size mask fuel oracle input = some (res, s1) →
        ∀ c ∈ res.line, IsControl c = false ∧ c ≠ K.IgnoreKey) := by
  have hinit : State.init.Inv := by decide
  have hclean : State.init.Clean K := by
    intro c hc
    simp [State.init] at hc
  constructor
  · intro keys s1 h
    exact runKeys_clean K size mask fuel oracle keys State.init hinit hclean s1 h
  · intro input res s1 h
    have hl := (ReadLineLoop_inv K size mask fuel oracle input State.init hinit res s1 h).2
    rw [hl]
    exact ReadLineLoop_clean K size mask fuel oracle input State.init hinit hclean res s1 h

theorem buffer_has_no_control_character_witness :
    (∀ c ∈ ([97, 99] : List Rune), IsControl c = false ∧ c ≠ asciiKeys.IgnoreKey) ∧
    (∀ c ∈ ([97, 98, 99] : List Rune), IsControl c = false ∧ c ≠ asciiKeys.IgnoreKey) :=
  ⟨(buffer_has_no_control_character asciiKeys ⟨80, 24⟩ 0 0 (constOracle ⟨3, 1⟩)).1
      [97, 27, 98, 0, 99, 2, 8] ⟨[97, 99], 1,
        [Call.PrintfC 97, Call.PrintfC 98, Call.PrintfC 99, Call.CursorBack 1,
         Call.CursorSave, Call.CursorBack 1, Call.EraseLineEnd, Call.PrintfC 99,
         Call.Print "\x1bE", Call.EraseLineEnd, Call.CursorRestore, Call.CursorBack 1],
        7, 0⟩ rfl,
   (buffer_has_no_control_character asciiKeys ⟨80, 24⟩ 0 0 (constOracle ⟨3, 1⟩)).2
      [ReadResult.rune 97, ReadResult.rune 27, ReadResult.rune 98, ReadResult.rune 0,
       ReadResult.rune 99, ReadResult.rune 13]
      ⟨[97, 98, 99], none⟩
      ⟨[97, 98, 99], 3,
        [Call.PrintfC 97, Call.PrintfC 98, Call.PrintfC 99, Call.Print "\r\n"], 6, 0⟩ rfl⟩

theorem reprintStep_eq (size : Coord) (mask : Rune) (cur : Coord) (out : List Call)
    (char : Rune) :
    reprintStep size mask (cur, out) char =
      (reprintCursor size cur, out ++ reprintCalls size mask cur char) := by
  unfold reprintStep reprintCursor reprintCalls showChar
  by_cases h : cur.X = size.X
  · simp [h]
  · simp [h]

theorem foldl_reprintStep (size : Coord) (mask : Rune) :
    ∀ (chars : List Rune) (cur : Coord) (out : List Call),
      (chars.foldl (reprintStep size mask) (cur, out)).2 =
        out ++ reprintOut size mask cur chars := by
  intro chars
  induction chars with
  | nil => intro cur out; simp [reprintOut]
  | cons ch rest ih =>
    intro cur out
    simp only [reprintOut, List.foldl_cons, reprintStep_eq]
    rw [ih, ih (reprintCursor size cur) ([] ++ reprintCalls size mask cur ch)]
    simp

theorem reprintOut_nil (size : Coord) (mask : Rune) (cur : Coord) :
    reprintOut size mask cur [] = [] := rfl

theorem reprintOut_cons (size : Coord) (mask : Rune) (cur : Coord) (ch : Rune)
    (rest : List Rune) :
    reprintOut size mask cur (ch :: rest) =
      reprintCalls size mask cur ch ++ reprintOut size mask (reprintCursor size cur) rest := by
  simp only [reprintOut, List.foldl_cons, reprintStep_eq]
  rw [foldl_reprintStep]
  simp [reprintOut]

theorem printedChars_append (a b : List Call) :
    printedChars (a ++ b) = printedChars a ++ printedChars b := by
  simp [printedChars, List.filterMap_append]

theorem printedChars_reprintOut (size : Coord) (mask : Rune) :
    ∀ (chars : List Rune) (cur : Coord),
      printedChars (reprintOut size mask cur chars) =
        chars.map fun ch => if mask = 0 then ch else mask := by
  intro chars
  induction chars with
  | nil => intro cur; rfl
  | cons ch rest ih =>
    intro cur
    rw [reprintOut_cons, printedChars_append, ih]
    unfold reprintCalls showChar
    by_cases h : cur.X = size.X <;> by_cases hm : mask = 0 <;>
      simp [h, hm, printedChars]

theorem reprintOut_no_save_restore (size : Coord) (mask : Rune) :
    ∀ (chars : List Rune) (cur : Coord),
      Call.CursorSave ∉ reprintOut size mask cur chars ∧
      Call.CursorRestore ∉ reprintOut size mask cur chars := by
  intro chars
  induction chars with
  | nil => intro cur; simp [reprintOut_nil]
  | cons ch rest ih =>
    intro cur
    rw [reprintOut_cons]
    have := ih (reprintCursor size cur)
    simp only [reprintCalls, showChar]
    split_ifs <;> simp [this.1, this.2]

theorem printedChars_eraseAndPrint (chars : List Rune) :
    printedChars (eraseAndPrint chars) = chars := by
  induction chars with
  | nil => rfl
  | cons ch rest ih =>
    have : eraseAndPrint (ch :: rest) =
        [Call.EraseLineEnd, Call.PrintfC ch] ++ eraseAndPrint rest := by
      simp [eraseAndPrint]
    rw [this, printedChars_append, ih]
    rfl

theorem eraseAndPrint_no_save_restore (chars : List Rune) :
    Call.CursorSave ∉ eraseAndPrint chars ∧ Call.CursorRestore ∉ eraseAndPrint chars := by
  simp [eraseAndPrint]

/-- The mid-line insert, in full. -/
theorem regularKey_inside (size cur : Coord) (mask : Rune) (oracle : Nat → Coord)
    (s : State) (r : Rune) (h0 : 0 ≤ s.index) (h1 : s.index < s.line.length) :
    regularKey size cur mask oracle s r = some
      { s with
        line := s.line.take s.index.toNat ++ ([r] ++ s.line.drop s.index.toNat)
        queries := s.queries + 1
        out := s.out ++ [Call.CursorSave, Call.EraseLineEnd]
          ++ reprintOut size mask cur (r :: s.line.drop s.index.toNat)
          ++ [Call.CursorRestore]
          ++ (if (oracle s.queries).X = size.X then [Call.CursorNextLine 1]
              else [Call.CursorForward 1])
        index := s.index + 1 } := by
  have htail : ¬ s.index = s.line.length := by omega
  have hfront := sliceTo_of_bounds s.line s.index h0 (le_of_lt h1)
  have hback := sliceFrom_of_bounds s.line s.index h0 (le_of_lt h1)
  have hlen : (s.line.take s.index.toNat).length = s.index.toNat := by
    rw [List.length_take]; omega
  have hrest := sliceFrom_of_bounds
    (s.line.take s.index.toNat ++ ([r] ++ s.line.drop s.index.toNat)) s.index
    h0 (by simp only [List.length_append, List.length_take, List.length_drop,
            List.length_singleton]; omega)
  rw [List.drop_left' hlen] at hrest
  simp only [List.singleton_append] at hrest
  simp only [regularKey, htail, if_false, hfront, hback, Option.some_bind,
    List.singleton_append, hrest, Option.map_some', foldl_reprintStep]

/-- The backward delete inside the line, in full. -/
theorem backspaceKey_inside (size cur : Coord) (s : State)
    (h0 : 0 < s.index) (h1 : s.index < s.line.length) :
    backspaceKey size cur s = some
      { s with
        line := s.line.take (s.index - 1).toNat ++ s.line.drop s.index.toNat
        out := s.out ++ [Call.CursorSave, Call.CursorBack 1]
          ++ eraseAndPrint (s.line.drop s.index.toNat)
          ++ [Call.Print "\x1bE", Call.EraseLineEnd, Call.CursorRestore]
          ++ (if cur.CursorIsAtLineBegin then
                [Call.CursorPreviousLine 1, Call.CursorForward size.X]
              else [Call.CursorBack 1])
        index := s.index - 1 } := by
  have hlen0 : (s.line.length : Int) > 0 := by omega
  have htail : ¬ s.index = s.line.length := by omega
  have hfront := sliceTo_of_bounds s.line (s.index - 1) (by omega) (by omega)
  have hback := sliceFrom_of_bounds s.line s.index (by omega) (le_of_lt h1)
  have hlen : (s.line.take (s.index - 1).toNat).length = (s.index - 1).toNat := by
    rw [List.length_take]; omega
  have hrest := sliceFrom_of_bounds
    (s.line.take (s.index - 1).toNat ++ s.line.drop s.index.toNat) (s.index - 1)
    (by omega) (by simp only [List.length_append, List.length_take, List.length_drop]; omega)
  rw [List.drop_left' hlen] at hrest
  simp only [backspaceKey, h0, hlen0, htail, and_self, if_true, if_false, hfront, hback,
    Option.some_bind, hrest, Option.map_some']

/-- The forward delete inside the line, in full. -/
theorem specialDeleteKey_inside (s : State)
    (h0 : 0 ≤ s.index) (h1 : s.index < s.line.length) :
    specialDeleteKey s = some
      { s with
        line := s.line.take s.index.toNat ++ s.line.drop (s.index + 1).toNat
        out := s.out ++ [Call.CursorSave]
          ++ eraseAndPrint (s.line.drop (s.index + 1).toNat)
          ++ [Call.Print "\x1bE", Call.EraseLineEnd, Call.CursorRestore]
          ++ (if ((s.line.take s.index.toNat ++ s.line.drop (s.index + 1).toNat).length : Int)
                  = 0 ∨
                s.index = (s.line.take s.index.toNat ++ s.line.drop (s.index + 1).toNat).length
              then [Call.EraseLineEnd] else []) } := by
  have hne : s.index ≠ s.line.length := by omega
  have hfront := sliceTo_of_bounds s.line s.index h0 (by omega)
  have hback := sliceFrom_of_bounds s.line (s.index + 1) (by omega) (by omega)
  have hlen : (s.line.take s.index.toNat).length = s.index.toNat := by
    rw [List.length_take]; omega
  have hrest := sliceFrom_of_bounds
    (s.line.take s.index.toNat ++ s.line.drop (s.index + 1).toNat) s.index
    h0 (by simp only [List.length_append, List.length_take, List.length_drop]; omega)
  rw [List.drop_left' hlen] at hrest
  simp only [specialDeleteKey, hne, ne_eq, not_false_eq_true, if_true, hfront, hback,
    Option.some_bind, hrest, Option.map_some']

/-- Claim C15. Every edit that is not an append at the tail re-prints the new
buffer from the edit point to its end, between the cursor save and the cursor
restore, each character once and in order: a regular (printable) key at
`index < len(line)` prints the new buffer from position `index`, each character
replaced by the mask when one is set; a backward delete at
`0 < index < len(line)` prints the new buffer from position `index - 1`; a
forward delete at `index < len(line)` prints the new buffer from position
`index`. No character is printed outside the save/restore pair. -/
theorem rerender_prints_suffix (K : Keys) (size : Coord) (mask : Rune) (fuel : Nat)
    (oracle : Nat → Coord) (s : State) (hK : K.Distinct)
    (h0 : 0 ≤ s.index) (h1 : s.index < s.line.length) :
    (∀ c, K.Regular c → ∃ s1 mid rest,
      handleKey K size mask fuel oracle s c = some (Outcome.next s1) ∧
      s1.out = s.out ++ Call.CursorSave :: (mid ++ Call.CursorRestore :: rest) ∧
      Call.CursorSave ∉ mid ∧ Call.CursorRestore ∉ mid ∧
      printedChars mid =
        (s1.line.drop s.index.toNat).map (fun ch => if mask = 0 then ch else mask) ∧
      printedChars rest = []) ∧
    (∀ r, (r = K.KeyBackspace ∨ r = K.KeyDelete) → 0 < s.index → ∃ s1 mid rest,
      handleKey K size mask fuel oracle s r = some (Outcome.next s1) ∧
      s1.out = s.out ++ Call.CursorSave :: (mid ++ Call.CursorRestore :: rest) ∧
      Call.CursorSave ∉ mid ∧ Call.CursorRestore ∉ mid ∧
      printedChars mid = s1.line.drop (s.index - 1).toNat ∧
      printedChars rest = []) ∧
    (∃ s1 mid rest,
      handleKey K size mask fuel oracle s K.SpecialKeyDelete = some (Outcome.next s1) ∧
      s1.out = s.out ++ Call.CursorSave :: (mid ++ Call.CursorRestore :: rest) ∧
      Call.CursorSave ∉ mid ∧ Call.CursorRestore ∉ mid ∧
      printedChars mid = s1.line.drop s.index.toNat ∧
      printedChars rest = []) := by
  have hlen : (s.line.take s.index.toNat).length = s.index.toNat := by
    rw [List.length_take]; omega
  refine ⟨?_, ?_, ?_⟩
  · intro c hc
    rw [handleKey_regular K size mask fuel oracle s c hc,
      regularKey_inside size (oracle s.queries) mask oracle
        { s with queries := s.queries + 1 } c h0 h1]
    refine ⟨_, Call.EraseLineEnd ::
        reprintOut size mask (oracle s.queries) (c :: s.line.drop s.index.toNat),
      (if (oracle (s.queries + 1)).X = size.X then [Call.CursorNextLine 1]
        else [Call.CursorForward 1]), rfl, ?_, ?_, ?_, ?_, ?_⟩
    · simp
    · simpa using (reprintOut_no_save_restore size mask _ (oracle s.queries)).1
    · simpa using (reprintOut_no_save_restore size mask _ (oracle s.queries)).2
    · dsimp only
      rw [List.drop_left' hlen]
      have : Call.EraseLineEnd ::
          reprintOut size mask (oracle s.queries) (c :: s.line.drop s.index.toNat) =
          [Call.EraseLineEnd] ++
          reprintOut size mask (oracle s.queries) (c :: s.line.drop s.index.toNat) := rfl
      rw [this, printedChars_append, printedChars_reprintOut]
      rfl
    · split_ifs <;> rfl
  · intro r hr hpos
    have hlen1 : (s.line.take (s.index - 1).toNat).length = (s.index - 1).toNat := by
      rw [List.length_take]; omega
    rw [handleKey_deleteBackward K size mask fuel oracle s hK r hr,
      backspaceKey_inside size (oracle s.queries) { s with queries := s.queries + 1 }
        hpos h1]
    refine ⟨_, Call.CursorBack 1 :: (eraseAndPrint (s.line.drop s.index.toNat) ++
        [Call.Print "\x1bE", Call.EraseLineEnd]),
      (if (oracle s.queries).CursorIsAtLineBegin then
          [Call.CursorPreviousLine 1, Call.CursorForward size.X]
        else [Call.CursorBack 1]), rfl, ?_, ?_, ?_, ?_, ?_⟩
    · simp
    · simpa using (eraseAndPrint_no_save_restore _).1
    · simpa using (eraseAndPrint_no_save_restore _).2
    · dsimp only
      rw [List.drop_left' hlen1]
      have : Call.CursorBack 1 :: (eraseAndPrint (s.line.drop s.index.toNat) ++
          [Call.Print "\x1bE", Call.EraseLineEnd]) =
          [Call.CursorBack 1] ++ (eraseAndPrint (s.line.drop s.index.toNat) ++
          [Call.Print "\x1bE", Call.EraseLineEnd]) := rfl
      rw [this, printedChars_append, printedChars_append, printedChars_eraseAndPrint]
      simp [printedChars]
    · split_ifs <;> rfl
  · rw [handleKey_deleteForward K size mask fuel oracle s hK,
      specialDeleteKey_inside { s with queries := s.queries + 1 } h0 h1]
    refine ⟨_, eraseAndPrint (s.line.drop (s.index + 1).toNat) ++
        [Call.Print "\x1bE", Call.EraseLineEnd],
      (if ((s.line.take s.index.toNat ++ s.line.drop (s.index + 1).toNat).length : Int) = 0 ∨
          s.index = (s.line.take s.index.toNat ++ s.line.drop (s.index + 1).toNat).length
        then [Call.EraseLineEnd] else []), rfl, ?_, ?_, ?_, ?_, ?_⟩
    · simp
    · simpa using (eraseAndPrint_no_save_restore _).1
    · simpa using (eraseAndPrint_no_save_restore _).2
    · dsimp only
      rw [List.drop_left' hlen, printedChars_append, printedChars_eraseAndPrint]
      simp [printedChars]
    · split_ifs <;> rfl

theorem rerender_prints_suffix_witness :
    ∃ s1 mid rest,
      handleKey asciiKeys ⟨80, 24⟩ 42 0 (constOracle ⟨4, 1⟩)
        ⟨[104, 101, 108, 108, 111], 3, [], 0, 0⟩ 88 = some (Outcome.next s1) ∧
      s1.out = [] ++ Call.CursorSave :: (mid ++ Call.CursorRestore :: rest) ∧
      Call.CursorSave ∉ mid ∧ Call.CursorRestore ∉ mid ∧
      printedChars mid =
        (s1.line.drop (3 : Int).toNat).map (fun ch => if (42 : Rune) = 0 then ch else 42) ∧
      printedChars rest = [] :=
  (rerender_prints_suffix asciiKeys ⟨80, 24⟩ 42 0 (constOracle ⟨4, 1⟩)
    ⟨[104, 101, 108, 108, 111], 3, [], 0, 0⟩ (by decide) (by decide) (by decide)).1 88
    (by decide)

theorem count_nextLine_reprintCalls (size : Coord) (mask : Rune) (cur : Coord) (ch : Rune) :
    (reprintCalls size mask cur ch).count (Call.CursorNextLine 1) =
      if cur.X = size.X then 1 else 0 := by
  simp only [reprintCalls, showChar]
  split_ifs <;> simp

/-- The number of next-row moves of the re-print loop started at a column in
`2..W`. -/
theorem count_nextLine_reprintOut (size : Coord) (mask : Rune) (hW : 2 ≤ size.X) :
    ∀ (chars : List Rune) (cur : Coord), 2 ≤ cur.X → cur.X ≤ size.X →
      (((reprintOut size mask cur chars).count (Call.CursorNextLine 1) : Nat) : Int) =
        (cur.X + chars.length - 2) / (size.X - 1) := by
  intro chars
  induction chars with
  | nil =>
    intro cur h1 h2
    simp only [reprintOut_nil, List.count_nil, Nat.cast_zero, List.length_nil, add_zero]
    rw [Int.ediv_eq_zero_of_lt (by omega) (by omega)]
  | cons ch rest ih =>
    intro cur h1 h2
    rw [reprintOut_cons, List.count_append, count_nextLine_reprintCalls]
    by_cases hx : cur.X = size.X
    · have hc : reprintCursor size cur = ⟨1 + 1, cur.Y + 1⟩ := by
        simp [reprintCursor, hx]
      rw [hc, if_pos hx, Nat.cast_add, ih ⟨1 + 1, cur.Y + 1⟩ (by norm_num) (by dsimp only; omega)]
      simp only [List.length_cons, Nat.cast_add, Nat.cast_one]
      have e1 : (1 : Int) + 1 + (rest.length : Int) - 2 = rest.length := by ring
      have e2 : cur.X + ((rest.length : Int) + 1) - 2 = rest.length + 1 * (size.X - 1) := by
        rw [hx]; ring
      rw [e1, e2, Int.add_mul_ediv_right _ _ (by omega : size.X - 1 ≠ 0)]
      ring
    · have hc : reprintCursor size cur = ⟨cur.X + 1, cur.Y⟩ := by
        simp [reprintCursor, hx]
      rw [hc, if_neg hx, Nat.cast_add, ih ⟨cur.X + 1, cur.Y⟩ (by dsimp only; omega)
        (by dsimp only; omega)]
      simp only [List.length_cons, Nat.cast_add, Nat.cast_one, Nat.cast_zero, zero_add]
      congr 1
      ring

/-- The number of next-row moves of the re-print loop over at least one
character, started at a column in `1..W`. -/
theorem count_nextLine_reprintOut_cons (size : Coord) (mask : Rune) (hW : 2 ≤ size.X)
    (ch : Rune) (rest : List Rune) (cur : Coord) (h1 : 1 ≤ cur.X) (h2 : cur.X ≤ size.X) :
    (((reprintOut size mask cur (ch :: rest)).count (Call.CursorNextLine 1) : Nat) : Int) =
      (cur.X + (ch :: rest).length - 2) / (size.X - 1) := by
  by_cases hx : cur.X = 1
  · have hne : ¬ cur.X = size.X := by omega
    have hc : reprintCursor size cur = ⟨cur.X + 1, cur.Y⟩ := by
      simp [reprintCursor, hne]
    rw [reprintOut_cons, List.count_append, count_nextLine_reprintCalls, hc, if_neg hne,
      Nat.cast_add, count_nextLine_reprintOut size mask hW rest ⟨cur.X + 1, cur.Y⟩
        (by dsimp only; omega) (by dsimp only; omega)]
    simp only [List.length_cons, Nat.cast_add, Nat.cast_one, Nat.cast_zero, zero_add]
    congr 1
    ring
  · exact count_nextLine_reprintOut size mask hW (ch :: rest) cur (by omega) h2

/-- Claim C20. A mid-line insert with `W ≥ 2` and reported column `x`,
`1 ≤ x ≤ W`: in every iteration of the re-print loop whose simulated column is
within `1..W`, a next-row move followed by erase-to-end-of-line is issued
immediately before the character exactly when the simulated column equals `W`,
and the character is printed at a simulated column within `1..W-1`, after which
the column is again within `1..W`; and over the `m = len(new line) - index`
characters re-printed, the number of next-row moves issued by the loop is
`floor((x + m - 2) / (W - 1))`. -/
theorem insert_wrap_count (K : Keys) (size : Coord) (mask : Rune) (fuel : Nat)
    (oracle : Nat → Coord) (s : State) (c : Rune) (hc : K.Regular c)
    (h0 : 0 ≤ s.index) (h1 : s.index < s.line.length) (hW : 2 ≤ size.X)
    (hx1 : 1 ≤ (oracle s.queries).X) (hx2 : (oracle s.queries).X ≤ size.X) :
    (∀ (cur : Coord) (out : List Call) (ch : Rune), 1 ≤ cur.X → cur.X ≤ size.X →
      (reprintStep size mask (cur, out) ch).2 =
        out ++ (if cur.X = size.X then [Call.CursorNextLine 1, Call.EraseLineEnd] else [])
          ++ [showChar mask ch] ∧
      1 ≤ (reprintStep size mask (cur, out) ch).1.X - 1 ∧
      (reprintStep size mask (cur, out) ch).1.X - 1 < size.X ∧
      (reprintStep size mask (cur, out) ch).1.X ≤ size.X) ∧
    (∃ s1 rest,
      handleKey K size mask fuel oracle s c = some (Outcome.next s1) ∧
      s1.out = s.out ++ [Call.CursorSave, Call.EraseLineEnd]
        ++ reprintOut size mask (oracle s.queries) (s1.line.drop s.index.toNat)
        ++ Call.CursorRestore :: rest ∧
      (((reprintOut size mask (oracle s.queries) (s1.line.drop s.index.toNat)).count
          (Call.CursorNextLine 1) : Nat) : Int) =
        ((oracle s.queries).X + ((s1.line.length : Int) - s.index) - 2) / (size.X - 1)) := by
  constructor
  · intro cur out ch c1 c2
    rw [reprintStep_eq]
    refine ⟨by simp [reprintCalls, List.append_assoc], ?_⟩
    by_cases hx : cur.X = size.X
    · simp only [reprintCursor, hx, if_true]
      omega
    · simp only [reprintCursor, hx, if_false]
      omega
  · have hlen : (s.line.take s.index.toNat).length = s.index.toNat := by
      rw [List.length_take]; omega
    rw [handleKey_regular K size mask fuel oracle s c hc,
      regularKey_inside size (oracle s.queries) mask oracle
        { s with queries := s.queries + 1 } c h0 h1]
    refine ⟨_, (if (oracle (s.queries + 1)).X = size.X then [Call.CursorNextLine 1]
        else [Call.CursorForward 1]), rfl, ?_, ?_⟩
    · dsimp only
      rw [List.drop_left' hlen]
      simp
    · dsimp only
      rw [List.drop_left' hlen]
      simp only [List.singleton_append]
      rw [count_nextLine_reprintOut_cons size mask hW c _ (oracle s.queries) hx1 hx2]
      congr 1
      simp only [List.length_cons, List.length_append, List.length_take, List.length_drop,
        Nat.cast_add, Nat.cast_one]
      omega

theorem insert_wrap_count_witness :
    ∃ s1 rest,
      handleKey asciiKeys ⟨5, 24⟩ 0 0 (constOracle ⟨4, 1⟩)
        ⟨[97, 98, 99, 100, 101, 102, 103, 104], 2, [], 0, 0⟩ 88 = some (Outcome.next s1) ∧
      s1.out = [] ++ [Call.CursorSave, Call.EraseLineEnd]
        ++ reprintOut ⟨5, 24⟩ 0 (constOracle ⟨4, 1⟩ 0) (s1.line.drop (2 : Int).toNat)
        ++ Call.CursorRestore :: rest ∧
      (((reprintOut ⟨5, 24⟩ 0 (constOracle ⟨4, 1⟩ 0) (s1.line.drop (2 : Int).toNat)).count
          (Call.CursorNextLine 1) : Nat) : Int) =
        ((constOracle ⟨4, 1⟩ 0).X + ((s1.line.length : Int) - 2) - 2) / (5 - 1) :=
  (insert_wrap_count asciiKeys ⟨5, 24⟩ 0 0 (constOracle ⟨4, 1⟩)
    ⟨[97, 98, 99, 100, 101, 102, 103, 104], 2, [], 0, 0⟩ 88 (by decide) (by decide)
    (by decide) (by decide) (by decide) (by decide)).2

theorem homeBody_eq (size : Coord) (c : Coord) (s : State) :
    homeBody size (c, s) =
      (followLeft size c,
       { s with
         out := s.out ++ ((if c.CursorIsAtLineBegin then
             [Call.CursorUp 1, Call.CursorForward size.X]
           else [Call.CursorBack 1]).map upToPreviousLine)
         index := s.index - 1
         iters := s.iters + 1 }) := by
  unfold homeBody followLeft
  by_cases hx : c.X = 1
  · simp [Coord.CursorIsAtLineBegin, hx, upToPreviousLine]
  · simp [Coord.CursorIsAtLineBegin, hx, upToPreviousLine]

/-- The calls of the Home loop are those of the ArrowLeft steps, with
`CursorPreviousLine` in place of `CursorUp`. -/
theorem homeLoop_calls (size : Coord) :
    ∀ (fuel : Nat) (c : Coord) (s : State), 0 ≤ s.index → s.index.toNat ≤ fuel →
      ∃ q, homeLoop size fuel (c, s) = some q ∧ q.2.index = 0 ∧
        q.2.out = s.out ++ (leftCalls size s.index.toNat c).map upToPreviousLine := by
  intro fuel
  induction fuel with
  | zero =>
    intro c s h0 hf
    have hz : s.index = 0 := by omega
    refine ⟨(c, s), by simp [homeLoop, hz], hz, ?_⟩
    simp [hz, leftCalls]
  | succ n ih =>
    intro c s h0 hf
    by_cases hpos : s.index > 0
    · have hstep : homeLoop size (n + 1) (c, s) = homeLoop size n (homeBody size (c, s)) := by
        simp [homeLoop, hpos]
      rw [hstep, homeBody_eq]
      obtain ⟨q, hq, hi, ho⟩ := ih (followLeft size c)
        { s with
          out := s.out ++ ((if c.CursorIsAtLineBegin then
              [Call.CursorUp 1, Call.CursorForward size.X]
            else [Call.CursorBack 1]).map upToPreviousLine)
          index := s.index - 1
          iters := s.iters + 1 } (by dsimp only; omega) (by dsimp only; omega)
      refine ⟨q, hq, hi, ?_⟩
      rw [ho]
      dsimp only
      have hn : s.index.toNat = (s.index - 1).toNat + 1 := by omega
      rw [hn, leftCalls, List.map_append, List.append_assoc]
    · have hz : s.index = 0 := by omega
      refine ⟨(c, s), by simp [homeLoop, hz], hz, ?_⟩
      simp [hz, leftCalls]

/-- The calls of `n` successive ArrowLeft keys whose oracle follows the cursor. -/
theorem runKeys_arrowLeft (K : Keys) (size : Coord) (mask : Rune) (fuel : Nat)
    (oracle : Nat → Coord) (hK : K.Distinct) :
    ∀ (n : Nat) (c : Coord) (s : State),
      (∀ k, k < n → oracle (s.queries + k) = (followLeft size)^[k] c) →
      (n : Int) ≤ s.index →
      ∃ s1, runKeys K size mask fuel oracle (List.replicate n K.KeyArrowLeft) s = some s1 ∧
        s1.index = s.index - n ∧ s1.line = s.line ∧
        s1.out = s.out ++ leftCalls size n c := by
  intro n
  induction n with
  | zero =>
    intro c s _ _
    exact ⟨s, rfl, by simp, rfl, by simp [leftCalls]⟩
  | succ n ih =>
    intro c s ho hn
    have hc : oracle s.queries = c := by simpa using ho 0 (Nat.succ_pos n)
    have hpos : s.index > 0 := by omega
    simp only [List.replicate_succ, runKeys, handleKey_left K size mask fuel oracle s hK, hc]
    have hstep : arrowLeftKey size c { s with queries := s.queries + 1 } =
        { s with
          queries := s.queries + 1
          out := s.out ++ (if c.CursorIsAtLineBegin then
              [Call.CursorUp 1, Call.CursorForward size.X]
            else [Call.CursorBack 1])
          index := s.index - 1 } := by
      simp [arrowLeftKey, hpos]
    rw [hstep]
    obtain ⟨s1, h1, hi, hl, hout⟩ := ih (followLeft size c)
      { s with
        queries := s.queries + 1
        out := s.out ++ (if c.CursorIsAtLineBegin then
            [Call.CursorUp 1, Call.CursorForward size.X]
          else [Call.CursorBack 1])
        index := s.index - 1 }
      (by
        intro k hk
        have := ho (k + 1) (by omega)
        rw [Function.iterate_succ_apply] at this
        rw [← this]
        dsimp only
        congr 1
        omega)
      (by dsimp only; push_cast at hn; omega)
    refine ⟨s1, h1, ?_, hl, ?_⟩
    · rw [hi]; dsimp only; push_cast; ring
    · rw [hout]; dsimp only; rw [leftCalls, List.append_assoc]

theorem leftOracle_follow (size : Coord) (start : Coord) (q0 k : Nat) :
    leftOracle size start q0 (q0 + k) = (followLeft size)^[k] start := by
  simp [leftOracle]

/-- Claim C16, as stated, fails: with width 5, the line "ab", index 2 and the
cursor reported at column 1 of row 2, the Home key issues `CursorPreviousLine(1)`
where the two ArrowLeft keys issue `CursorUp(1)`; the two call sequences
differ. -/
theorem home_calls_differ_from_arrowLeft :
    ∃ sh sl,
      handleKey asciiKeys ⟨5, 24⟩ 0 2 (constOracle ⟨1, 2⟩) ⟨[97, 98], 2, [], 0, 0⟩
        asciiKeys.SpecialKeyHome = some (Outcome.next sh) ∧
      runKeys asciiKeys ⟨5, 24⟩ 0 2 (leftOracle ⟨5, 24⟩ ⟨1, 2⟩ 0)
        [asciiKeys.KeyArrowLeft, asciiKeys.KeyArrowLeft] ⟨[97, 98], 2, [], 0, 0⟩ = some sl ∧
      sh.out = [Call.CursorPreviousLine 1, Call.CursorForward 5, Call.CursorBack 1] ∧
      sl.out = [Call.CursorUp 1, Call.CursorForward 5, Call.CursorBack 1] ∧
      sh.out ≠ sl.out :=
  ⟨_, _, rfl, rfl, rfl, rfl, by decide⟩

/-- Claim C16, amended. For every state with `index = i > 0` and any reported
cursor, the renderer calls issued by one Home key are the cursor-movement calls
issued by `i` successive ArrowLeft keys whose oracle answers follow the cursor
(column `W` of the previous row after a step taken from column 1, one column
less otherwise), with each `CursorUp(1)` of ArrowLeft replaced by
`CursorPreviousLine(1)`; both end with index 0. From column 1, where the
replaced call is issued, the two calls move the cursor to the same place. -/
theorem home_repeats_arrowLeft (K : Keys) (size : Coord) (mask : Rune) (fuel : Nat)
    (oracle : Nat → Coord) (s : State) (hK : K.Distinct)
    (hpos : 0 < s.index) (hfuel : s.index.toNat ≤ fuel) :
    (∃ sh sl callsL,
      handleKey K size mask fuel oracle s K.SpecialKeyHome = some (Outcome.next sh) ∧
      runKeys K size mask fuel (leftOracle size (oracle s.queries) s.queries)
        (List.replicate s.index.toNat K.KeyArrowLeft) s = some sl ∧
      sh.index = 0 ∧ sl.index = 0 ∧
      sl.out = s.out ++ callsL ∧
      sh.out = s.out ++ callsL.map upToPreviousLine) ∧
    (∀ (W : Int) (scr : Screen), scr.cur.X = 1 →
      Screen.apply W scr (Call.CursorUp 1) = Screen.apply W scr (Call.CursorPreviousLine 1)) := by
  constructor
  · obtain ⟨q, hq, hqi, hqo⟩ := homeLoop_calls size fuel (oracle s.queries)
      { s with queries := s.queries + 1 } (le_of_lt hpos) hfuel
    obtain ⟨sl, hl, hli, -, hlo⟩ := runKeys_arrowLeft K size mask fuel
      (leftOracle size (oracle s.queries) s.queries) hK s.index.toNat (oracle s.queries) s
      (fun k _ => leftOracle_follow size (oracle s.queries) s.queries k) (by omega)
    refine ⟨q.2, sl, leftCalls size s.index.toNat (oracle s.queries), ?_, hl, hqi, ?_, hlo, hqo⟩
    · rw [handleKey_homeKey K size mask fuel oracle s hK, hq]
      rfl
    · rw [hli]; omega
  · intro W scr hx
    simp [Screen.apply, hx]

theorem home_repeats_arrowLeft_witness :
    ∃ sh sl callsL,
      handleKey asciiKeys ⟨5, 24⟩ 0 2 (constOracle ⟨1, 2⟩) ⟨[97, 98], 2, [], 0, 0⟩
        asciiKeys.SpecialKeyHome = some (Outcome.next sh) ∧
      runKeys asciiKeys ⟨5, 24⟩ 0 2 (leftOracle ⟨5, 24⟩ (constOracle ⟨1, 2⟩ 0) 0)
        (List.replicate (2 : Int).toNat asciiKeys.KeyArrowLeft) ⟨[97, 98], 2, [], 0, 0⟩
        = some sl ∧
      sh.index = 0 ∧ sl.index = 0 ∧
      sl.out = [] ++ callsL ∧
      sh.out = [] ++ callsL.map upToPreviousLine :=
  (home_repeats_arrowLeft asciiKeys ⟨5, 24⟩ 0 2 (constOracle ⟨1, 2⟩) ⟨[97, 98], 2, [], 0, 0⟩
    (by decide) (by decide) (by decide)).1

theorem Screen.run_nil (W : Int) (t : Screen) : Screen.run W t [] = t := rfl

theorem Screen.run_cons (W : Int) (t : Screen) (c : Call) (cs : List Call) :
    Screen.run W t (c :: cs) = Screen.run W (Screen.apply W t c) cs := rfl

theorem Screen.run_append (W : Int) (t : Screen) (a b : List Call) :
    Screen.run W t (a ++ b) = Screen.run W (Screen.run W t a) b := by
  simp [Screen.run, List.foldl_append]

/-- Calls other than the cursor save leave the saved position alone. -/
theorem Screen.run_saved (W : Int) :
    ∀ (calls : List Call) (t : Screen), Call.CursorSave ∉ calls →
      (Screen.run W t calls).saved = t.saved := by
  intro calls
  induction calls with
  | nil => intro t _; rfl
  | cons c cs ih =>
    intro t h
    simp only [List.mem_cons, not_or] at h
    rw [Screen.run_cons, ih _ h.2]
    cases c <;> first | rfl | exact absurd rfl h.1

/-- A cursor save, calls without a save, then a cursor restore: the cursor is
back where it was. -/
theorem Screen.run_save_restore (W : Int) (t : Screen) (mid : List Call)
    (h : Call.CursorSave ∉ mid) :
    (Screen.run W t (Call.CursorSave :: (mid ++ [Call.CursorRestore]))).cur = t.cur := by
  rw [Screen.run_cons, Screen.run_append, Screen.run_cons, Screen.run_nil]
  simp only [Screen.apply]
  rw [Screen.run_saved W mid _ h]

/-- The backward delete at the end of the line, in full. -/
theorem backspaceKey_at_end (size cur : Coord) (s : State)
    (h0 : 0 < s.index) (h1 : s.index = s.line.length) :
    backspaceKey size cur s = some
      { s with
        line := s.line.take ((s.line.length : Int) - 1).toNat
        out := s.out ++ backOne size cur ++ [Call.EraseLineEnd]
        index := s.index - 1 } := by
  have hlen : (s.line.length : Int) > 0 := by omega
  simp only [backspaceKey, h0, hlen, h1, and_self, if_true]
  rw [sliceTo_of_bounds _ _ (by omega) (by omega)]
  rfl

/-- The regular key at the end of the line, in full. -/
theorem regularKey_at_end (size cur : Coord) (mask : Rune) (oracle : Nat → Coord)
    (s : State) (r : Rune) (h1 : s.index = s.line.length) :
    regularKey size cur mask oracle s r = some
      { s with
        line := s.line ++ [r]
        index := s.index + 1
        out := s.out ++ [showChar mask r] } := by
  simp only [regularKey, h1, if_true, showChar]

section Tracking

variable (size : Coord) (c0 : Int) (scr : Screen) (s : State)

theorem backspaceKey_tracks (cur : Coord) (h0 : 0 ≤ s.index) (h1 : s.index ≤ s.line.length)
    (hc0 : 1 ≤ c0) (hscr : scr.cur.X = c0 + s.index) (hcur : cur.X = c0 + s.index) :
    ∃ s1 calls, backspaceKey size cur s = some s1 ∧ s1.out = s.out ++ calls ∧
      (Screen.run size.X scr calls).cur.X = c0 + s1.index := by
  by_cases hpos : 0 < s.index
  · have hnb : ¬ cur.X = 1 := by omega
    have hnb1 : cur.CursorIsAtLineBegin = false := by
      simpa [Coord.CursorIsAtLineBegin] using hnb
    by_cases htail : s.index = s.line.length
    · rw [backspaceKey_at_end size cur s hpos htail]
      refine ⟨_, [Call.CursorBack 1, Call.EraseLineEnd], rfl, ?_, ?_⟩
      · simp [backOne, hnb]
      · simp only [Screen.run, List.foldl_cons, List.foldl_nil, Screen.apply, hscr]
        omega
    · rw [backspaceKey_inside size cur s hpos (by omega)]
      refine ⟨_, Call.CursorSave :: ((Call.CursorBack 1 ::
          (eraseAndPrint (s.line.drop s.index.toNat) ++
            [Call.Print "\x1bE", Call.EraseLineEnd])) ++ [Call.CursorRestore])
          ++ [Call.CursorBack 1], rfl, ?_, ?_⟩
      · simp [hnb1]
      · rw [Screen.run_append, Screen.run_cons, Screen.run_nil]
        simp only [Screen.apply]
        rw [Screen.run_save_restore _ _ _
          (by simpa using (eraseAndPrint_no_save_restore _).1), hscr]
        omega
  · have hz : s.index = 0 := by omega
    rw [backspaceKey_bell size cur s (Or.inl hz)]
    refine ⟨_, [Call.soundBell], rfl, rfl, ?_⟩
    simp only [Screen.run, List.foldl_cons, List.foldl_nil, Screen.apply, hscr]

theorem arrowLeftKey_tracks (cur : Coord) (h0 : 0 ≤ s.index)
    (hc0 : 1 ≤ c0) (hscr : scr.cur.X = c0 + s.index) (hcur : cur.X = c0 + s.index) :
    ∃ calls, (arrowLeftKey size cur s).out = s.out ++ calls ∧
      (Screen.run size.X scr calls).cur.X = c0 + (arrowLeftKey size cur s).index := by
  by_cases hpos : 0 < s.index
  · have hnb : ¬ cur.X = 1 := by omega
    refine ⟨[Call.CursorBack 1], ?_, ?_⟩
    · simp [arrowLeftKey, hpos, Coord.CursorIsAtLineBegin, hnb]
    · simp only [Screen.run, List.foldl_cons, List.foldl_nil, Screen.apply, hscr, arrowLeftKey,
        gt_iff_lt, hpos, if_true]
      omega
  · have hz : ¬ s.index > 0 := by omega
    refine ⟨[Call.soundBell], ?_, ?_⟩
    · simp [arrowLeftKey, hz]
    · simp only [Screen.run, List.foldl_cons, List.foldl_nil, Screen.apply, hscr, arrowLeftKey,
        hz, if_false]

theorem arrowRightKey_tracks (cur : Coord)
    (hfit : c0 + s.line.length < size.X)
    (hscr : scr.cur.X = c0 + s.index) (hcur : cur.X = c0 + s.index) :
    ∃ calls, (arrowRightKey size cur s).out = s.out ++ calls ∧
      (Screen.run size.X scr calls).cur.X = c0 + (arrowRightKey size cur s).index := by
  by_cases hlt : s.index < s.line.length
  · have hne : ¬ cur.X = size.X := by omega
    refine ⟨[Call.CursorForward 1], ?_, ?_⟩
    · simp [arrowRightKey, hlt, Coord.CursorIsAtLineEnd, hne]
    · simp only [Screen.run, List.foldl_cons, List.foldl_nil, Screen.apply, hscr, arrowRightKey,
        hlt, if_true]
      omega
  · refine ⟨[Call.soundBell], ?_, ?_⟩
    · simp [arrowRightKey, hlt]
    · simp only [Screen.run, List.foldl_cons, List.foldl_nil, Screen.apply, hscr, arrowRightKey,
        hlt, if_false]

theorem specialDeleteKey_tracks (h0 : 0 ≤ s.index) (h1 : s.index ≤ s.line.length)
    (hscr : scr.cur.X = c0 + s.index) :
    ∃ s1 calls, specialDeleteKey s = some s1 ∧ s1.out = s.out ++ calls ∧
      (Screen.run size.X scr calls).cur.X = c0 + s1.index := by
  by_cases hlt : s.index < s.line.length
  · rw [specialDeleteKey_inside s h0 hlt]
    refine ⟨_, Call.CursorSave :: ((eraseAndPrint (s.line.drop (s.index + 1).toNat) ++
          [Call.Print "\x1bE", Call.EraseLineEnd]) ++ [Call.CursorRestore])
        ++ (if ((s.line.take s.index.toNat ++ s.line.drop (s.index + 1).toNat).length : Int)
                = 0 ∨
              s.index = (s.line.take s.index.toNat ++ s.line.drop (s.index + 1).toNat).length
            then [Call.EraseLineEnd] else []), rfl, ?_, ?_⟩
    · simp
    · rw [Screen.run_append]
      have hsr := Screen.run_save_restore size.X scr
        (eraseAndPrint (s.line.drop (s.index + 1).toNat) ++
          [Call.Print "\x1bE", Call.EraseLineEnd])
        (by simpa using (eraseAndPrint_no_save_restore _).1)
      split_ifs
      · rw [Screen.run_cons, Screen.run_nil]
        simp only [Screen.apply]
        rw [hsr, hscr]
      · rw [Screen.run_nil, hsr, hscr]
  · rw [specialDeleteKey_end s (by omega)]
    exact ⟨s, [], rfl, by simp, by simpa [Screen.run] using hscr⟩

theorem regularKey_tracks (cur : Coord) (mask : Rune) (oracle : Nat → Coord) (r : Rune)
    (h0 : 0 ≤ s.index) (h1 : s.index ≤ s.line.length)
    (hfit : c0 + s.line.length < size.X)
    (hscr : scr.cur.X = c0 + s.index) (hsecond : (oracle s.queries).X = c0 + s.index) :
    ∃ s1 calls, regularKey size cur mask oracle s r = some s1 ∧ s1.out = s.out ++ calls ∧
      (Screen.run size.X scr calls).cur.X = c0 + s1.index := by
  by_cases htail : s.index = s.line.length
  · rw [regularKey_at_end size cur mask oracle s r htail]
    refine ⟨_, [showChar mask r], rfl, rfl, ?_⟩
    simp only [showChar]
    split_ifs <;>
      (simp only [Screen.run, List.foldl_cons, List.foldl_nil, Screen.apply, hscr]; omega)
  · rw [regularKey_inside size cur mask oracle s r h0 (by omega)]
    have hne : ¬ (oracle s.queries).X = size.X := by omega
    refine ⟨_, Call.CursorSave :: ((Call.EraseLineEnd ::
          reprintOut size mask cur (r :: s.line.drop s.index.toNat)) ++ [Call.CursorRestore])
        ++ [Call.CursorForward 1], rfl, ?_, ?_⟩
    · simp [hne]
    · rw [Screen.run_append, Screen.run_cons, Screen.run_nil]
      simp only [Screen.apply]
      rw [Screen.run_save_restore _ _ _
        (by simpa using (reprintOut_no_save_restore size mask _ cur).1), hscr]
      omega

theorem homeLoop_tracks (hc0 : 1 ≤ c0) :
    ∀ (fuel : Nat) (cur : Coord) (s : State) (scr : Screen),
      0 ≤ s.index → s.index.toNat ≤ fuel →
      scr.cur.X = c0 + s.index → cur.X = c0 + s.index →
      ∃ q calls, homeLoop size fuel (cur, s) = some q ∧ q.2.out = s.out ++ calls ∧
        (Screen.run size.X scr calls).cur.X = c0 + q.2.index := by
  intro fuel
  induction fuel with
  | zero =>
    intro cur s scr h0 hf hscr hcur
    have hz : ¬ s.index > 0 := by omega
    exact ⟨(cur, s), [], by simp [homeLoop, hz], by simp, by simpa [Screen.run] using hscr⟩
  | succ n ih =>
    intro cur s scr h0 hf hscr hcur
    by_cases hpos : s.index > 0
    · have hnb : ¬ cur.X = 1 := by omega
      have hbody : homeBody size (cur, s) =
          ({ cur with X := cur.X - 1 },
           { s with
             out := s.out ++ [Call.CursorBack 1]
             index := s.index - 1
             iters := s.iters + 1 }) := by
        simp [homeBody, Coord.CursorIsAtLineBegin, hnb]
      obtain ⟨q, calls, hq, ho, hx⟩ := ih { cur with X := cur.X - 1 }
        { s with
          out := s.out ++ [Call.CursorBack 1]
          index := s.index - 1
          iters := s.iters + 1 }
        (Screen.apply size.X scr (Call.CursorBack 1))
        (by dsimp only; omega) (by dsimp only; omega)
        (by simp only [Screen.apply, hscr]; omega) (by dsimp only; omega)
      refine ⟨q, Call.CursorBack 1 :: calls, ?_, ?_, ?_⟩
      · simp only [homeLoop, hpos, if_true, hbody, hq]
      · rw [ho]; simp
      · rw [Screen.run_cons]; exact hx
    · exact ⟨(cur, s), [], by simp [homeLoop, hpos], by simp,
        by simpa [Screen.run] using hscr⟩

theorem endLoop_tracks :
    ∀ (fuel : Nat) (cur : Coord) (s : State) (scr : Screen),
      0 ≤ s.index → s.index ≤ s.line.length → s.line.length - s.index.toNat ≤ fuel →
      c0 + s.line.length < size.X →
      scr.cur.X = c0 + s.index → cur.X = c0 + s.index →
      ∃ q calls, endLoop size fuel (cur, s) = some q ∧ q.2.out = s.out ++ calls ∧
        (Screen.run size.X scr calls).cur.X = c0 + q.2.index := by
  intro fuel
  induction fuel with
  | zero =>
    intro cur s scr h0 h1 hf hfit hscr hcur
    by_cases he : s.index = s.line.length
    · exact ⟨(cur, s), [], by simp [endLoop, he], by simp, by simpa [Screen.run] using hscr⟩
    · exfalso; omega
  | succ n ih =>
    intro cur s scr h0 h1 hf hfit hscr hcur
    by_cases he : s.index = s.line.length
    · exact ⟨(cur, s), [], by simp [endLoop, he], by simp, by simpa [Screen.run] using hscr⟩
    · have hne : ¬ cur.X = size.X := by omega
      have hbody : endBody size (cur, s) =
          ({ cur with X := cur.X + 1 },
           { s with
             out := s.out ++ [Call.CursorForward 1]
             index := s.index + 1
             iters := s.iters + 1 }) := by
        simp [endBody, Coord.CursorIsAtLineEnd, hne]
      obtain ⟨q, calls, hq, ho, hx⟩ := ih { cur with X := cur.X + 1 }
        { s with
          out := s.out ++ [Call.CursorForward 1]
          index := s.index + 1
          iters := s.iters + 1 }
        (Screen.apply size.X scr (Call.CursorForward 1))
        (by dsimp only; omega) (by dsimp only; omega) (by dsimp only; omega)
        (by dsimp only; omega)
        (by simp only [Screen.apply, hscr]; omega) (by dsimp only; omega)
      refine ⟨q, Call.CursorForward 1 :: calls, ?_, ?_, ?_⟩
      · simp only [endLoop, ne_eq, he, not_false_eq_true, if_true, hbody, hq]
      · rw [ho]; simp
      · rw [Screen.run_cons]; exact hx

end Tracking

/-- Claim C17. While the line does not wrap, the cursor column tracks the index.
On the terminal model `Screen.apply` (a printed character moves the cursor one
column right, `CursorBack(n)` and `CursorForward(n)` move it `n` columns inside
the row, `CursorRestore` returns it to the position of `CursorSave`): if before
a key that does not end the session the cursor column is `c0 + index` with
`c0 ≥ 1` and `c0 + len(line) < W`, and the oracle reports that column (at the
top of the loop body and, for the mid-line insert, again after the restore),
then the key yields a next state and after its renderer calls the cursor
column is `c0 + index'` for the new index. This holds for every key: regular
at the tail or mid-line, backward delete, forward delete, ArrowLeft,
ArrowRight, Home, End and ignored keys. -/
theorem cursor_column_tracks_index (K : Keys) (size : Coord) (mask : Rune) (fuel : Nat)
    (oracle : Nat → Coord) (s : State) (r : Rune) (c0 : Int) (scr : Screen)
    (h0 : 0 ≤ s.index) (h1 : s.index ≤ s.line.length)
    (hc0 : 1 ≤ c0) (hfit : c0 + s.line.length < size.X)
    (hscr : scr.cur.X = c0 + s.index)
    (hfirst : (oracle s.queries).X = c0 + s.index)
    (hsecond : (oracle (s.queries + 1)).X = c0 + s.index)
    (hkey : ¬(r = 13 ∨ r = 10 ∨ r = K.KeyEndTransmission) ∧ r ≠ K.KeyInterrupt)
    (hfuel : s.line.length ≤ fuel) :
    ∃ s1 calls, handleKey K size mask fuel oracle s r = some (Outcome.next s1) ∧
      s1.out = s.out ++ calls ∧
      (Screen.run size.X scr calls).cur.X = c0 + s1.index := by
  obtain ⟨c1, c2⟩ := hkey
  by_cases c3 : r = K.KeyBackspace ∨ r = K.KeyDelete
  · rw [handleKey_backspace K size mask fuel oracle s r c1 c2 c3]
    obtain ⟨s1, calls, he, ho, hx⟩ := backspaceKey_tracks size c0 scr
      { s with queries := s.queries + 1 } (oracle s.queries) h0 h1 hc0 hscr hfirst
    exact ⟨s1, calls, by rw [he]; rfl, ho, hx⟩
  by_cases c4 : r = K.KeyArrowLeft
  · rw [handleKey_arrowLeft K size mask fuel oracle s r c1 c2 c3 c4]
    obtain ⟨calls, ho, hx⟩ := arrowLeftKey_tracks size c0 scr
      { s with queries := s.queries + 1 } (oracle s.queries) h0 hc0 hscr hfirst
    exact ⟨_, calls, rfl, ho, hx⟩
  by_cases c5 : r = K.KeyArrowRight
  · rw [handleKey_arrowRight K size mask fuel oracle s r c1 c2 c3 c4 c5]
    obtain ⟨calls, ho, hx⟩ := arrowRightKey_tracks size c0 scr
      { s with queries := s.queries + 1 } (oracle s.queries) hfit hscr hfirst
    exact ⟨_, calls, rfl, ho, hx⟩
  by_cases c6 : r = K.SpecialKeyHome
  · rw [handleKey_home K size mask fuel oracle s r c1 c2 c3 c4 c5 c6]
    obtain ⟨q, calls, he, ho, hx⟩ := homeLoop_tracks size c0 hc0 fuel (oracle s.queries)
      { s with queries := s.queries + 1 } scr h0 (by dsimp only; omega) hscr hfirst
    exact ⟨q.2, calls, by rw [he]; rfl, ho, hx⟩
  by_cases c7 : r = K.SpecialKeyEnd
  · rw [handleKey_end K size mask fuel oracle s r c1 c2 c3 c4 c5 c6 c7]
    obtain ⟨q, calls, he, ho, hx⟩ := endLoop_tracks size c0 fuel (oracle s.queries)
      { s with queries := s.queries + 1 } scr h0 h1 (by dsimp only; omega) hfit hscr hfirst
    exact ⟨q.2, calls, by rw [he]; rfl, ho, hx⟩
  by_cases c8 : r = K.SpecialKeyDelete
  · rw [handleKey_specialDelete K size mask fuel oracle s r c1 c2 c3 c4 c5 c6 c7 c8]
    obtain ⟨s1, calls, he, ho, hx⟩ := specialDeleteKey_tracks size c0 scr
      { s with queries := s.queries + 1 } h0 h1 hscr
    exact ⟨s1, calls, by rw [he]; rfl, ho, hx⟩
  by_cases c9 : IsControl r = true ∨ r = K.IgnoreKey
  · rw [handleKey_ignore K size mask fuel oracle s r c1 c2 c3 c4 c5 c6 c7 c8 c9]
    exact ⟨_, [], rfl, by simp, by simpa [Screen.run] using hscr⟩
  · have hreg : K.Regular r := by
      simp only [not_or] at c1 c3 c9
      exact ⟨c1.1, c1.2.1, c1.2.2, c2, c3.1, c3.2, c4, c5, c6, c7, c8, by simpa using c9.1, c9.2⟩
    rw [handleKey_regular K size mask fuel oracle s r hreg]
    obtain ⟨s1, calls, he, ho, hx⟩ := regularKey_tracks size c0 scr
      { s with queries := s.queries + 1 } (oracle s.queries) mask oracle r h0 h1 hfit hscr
      hsecond
    exact ⟨s1, calls, by rw [he]; rfl, ho, hx⟩

theorem cursor_column_tracks_index_witness :
    ∃ s1 calls, handleKey asciiKeys ⟨80, 24⟩ 0 5 (constOracle ⟨13, 1⟩)
        ⟨[104, 101, 108, 108, 111], 3, [], 0, 0⟩ 88 = some (Outcome.next s1) ∧
      s1.out = [] ++ calls ∧
      (Screen.run 80 ⟨⟨13, 1⟩, ⟨1, 1⟩⟩ calls).cur.X = 10 + s1.index :=
  cursor_column_tracks_index asciiKeys ⟨80, 24⟩ 0 5 (constOracle ⟨13, 1⟩)
    ⟨[104, 101, 108, 108, 111], 3, [], 0, 0⟩ 88 10 ⟨⟨13, 1⟩, ⟨1, 1⟩⟩
    (by decide) (by decide) (by decide) (by decide) rfl rfl rfl (by decide) (by decide)

end Terminal
